import Mathlib

/-!
Verification of `base64.cpp`.

A shallow embedding of the chunked base-64 transcoder of `src/base64/base64.cpp`
(the alphabet, the two workers `encode_chunk` / `decode_chunk`, and the two run
loops `base64::encode` / `base64::decode`), followed by the properties proved
about it.

Conventions of the embedding:
* an `unsigned char` is a `Fin 256`; wherever the source promotes it to `int`
  the model works on its value as a natural number;
* a `char` of a `std::string` is a `Char`, a `std::string` is a `List Char`;
* `int` values are `Int`; narrowing an `int` to `unsigned char` is `% 256`;
* a file opened for reading is the finite list of what is left to read together
  with the stream's good-bit; the sink is the list of what was written;
* a `std::future` is modelled by the value it yields (the workers are pure), and
  the `futures` vector is a FIFO list of such values.
-/

namespace Base64

/-! ## Data model -/

/-- An `unsigned char`. -/
abbrev Byte := Fin 256

/-- Source line 6: `const size_t chunkSize = 1024 * 1024;`. -/
def chunkSize : Nat := 1024 * 1024

/-- Source line 7: the 64-symbol table `b64_chars`. -/
def b64_chars : List Char :=
  "ABCDEFGHIJKLMNOPQRSTUVWXYZabcdefghijklmnopqrstuvwxyz0123456789+/".toList

/-- The lookup `b64_chars[i]` of the source (`std::string::operator[]`). -/
def b64_at (i : Nat) : Char := b64_chars.getD i '\x00'

/-! ## Encode worker -/

/-- The `for` loop of `encode_chunk` (source lines 12-22): `i` is the loop index,
`out` the text accumulated so far. -/
def encode_loop (data : List Byte) (i : Nat) (out : List Char) : List Char :=
  if h : i < data.length then
    let a : Nat := (data[i]).val
    let b : Nat := if h1 : i + 1 < data.length then (data[i + 1]).val else 0
    let c : Nat := if h2 : i + 2 < data.length then (data[i + 2]).val else 0
    let out := out ++ [b64_at (a >>> 2)]
    let out := out ++ [b64_at (((a &&& 0x03) <<< 4) ||| (b >>> 4))]
    let out := out ++
      [if i + 1 < data.length then b64_at (((b &&& 0x0F) <<< 2) ||| (c >>> 6)) else '=']
    let out := out ++ [if i + 2 < data.length then b64_at (c &&& 0x3F) else '=']
    encode_loop data (i + 3) out
  else out
termination_by data.length - i
decreasing_by omega

/-- Source lines 9-24: `encode_chunk`. -/
def encode_chunk (data : List Byte) : List Char :=
  encode_loop data 0 []

/-! ## Decode worker -/

/-- Source lines 51-55: `b64_index`; `std::string::find` yields the first position
of `c`, or `npos`, which the function turns into `-1`. -/
def b64_index (c : Char) : Int :=
  let pos := b64_chars.indexOf c
  if pos = b64_chars.length then -1 else (pos : Int)

/-- Narrowing of an `int` to `unsigned char`. -/
def toUChar (x : Int) : Byte := Fin.ofNat (x % 256).toNat

/-- The local state of `decode_chunk`: the output vector, the four slots of `a4`
and the group cursor `i`. -/
structure DecodeState where
  out : List Byte
  a4 : List Char
  i : Nat
deriving DecidableEq, Repr

/-- The test of source line 68. -/
def is_symbol (c : Char) : Bool := c == '=' || b64_index c != -1

/-- One iteration of the range-`for` of `decode_chunk` (source lines 66-86). -/
def decode_step (st : DecodeState) (c : Char) : DecodeState :=
  if is_symbol c then
    let a4 := st.a4.set st.i c
    let i := st.i + 1
    if i = 4 then
      let vals : Nat → Int := fun k =>
        if a4.getD k '\x00' = '=' then 0 else b64_index (a4.getD k '\x00')
      let a3_0 := toUChar (Int.lor (vals 0 <<< (2 : Int)) (Int.land (vals 1) 0x30 >>> (4 : Int)))
      let a3_1 := toUChar (Int.lor (Int.land (vals 1) 0xf <<< (4 : Int))
        (Int.land (vals 2) 0x3c >>> (2 : Int)))
      let a3_2 := toUChar (Int.lor (Int.land (vals 2) 0x3 <<< (6 : Int)) (vals 3))
      let out := st.out ++ [a3_0]
      let out := if a4.getD 2 '\x00' ≠ '=' then out ++ [a3_1] else out
      let out := if a4.getD 3 '\x00' ≠ '=' then out ++ [a3_2] else out
      { out := out, a4 := a4, i := 0 }
    else { out := st.out, a4 := a4, i := i }
  else st

/-- The state `decode_chunk` starts from; the content of the uninitialised array
`a4` is represented by four NUL characters (it is overwritten before it is read). -/
def decode_init : DecodeState := { out := [], a4 := ['\x00', '\x00', '\x00', '\x00'], i := 0 }

/-- Source lines 57-88: `decode_chunk`. -/
def decode_chunk (input : List Char) : List Byte :=
  (input.foldl decode_step decode_init).out

/-! ## Streams and the bounded window -/

/-- A `std::ifstream`: the elements not yet read and whether the stream is still
good (`false` once a read has hit the end of the file). -/
structure IStream (α : Type) where
  rest : List α
  good : Bool
deriving DecidableEq, Repr

/-- The call `in.read(p, n)` together with `in.gcount()`: the characters extracted
(at most `n`) and the stream afterwards; a read that finds fewer than `n` characters
fails the stream, and a failed stream yields nothing. -/
def IStream.read {α : Type} (s : IStream α) (n : Nat) : List α × IStream α :=
  if s.good then
    (s.rest.take n, { rest := s.rest.drop n, good := decide (n ≤ s.rest.length) })
  else ([], s)

/-- The call `in.get(extra)`: one character if the stream is good and has one,
otherwise nothing and a failed stream. -/
def IStream.get {α : Type} (s : IStream α) : Option α × IStream α :=
  if s.good then
    match s.rest with
    | [] => (none, { rest := [], good := false })
    | x :: r => (some x, { rest := r, good := true })
  else (none, s)

/-- The state of a run of `base64::encode` / `base64::decode`: the input stream, the
`futures` vector (each future given by the result it yields), what has been written
to the output file, and (ghost state, not in the source) the chunks handed to the
worker so far, in order. -/
structure RunState (α β : Type) where
  input : IStream α
  futures : List (List β)
  sink : List β
  dispatched : List (List α)

/-- Source lines 40-46 and 112-119: push the new task, and once the vector holds at
least `threads` futures write the front one to the output and erase it. Returns the
new `futures` vector and the new content of the output. -/
def window_push {β : Type} (threads : Nat) (futures : List (List β)) (sink : List β)
    (result : List β) : List (List β) × List β :=
  let futures := futures ++ [result]
  if futures.length ≥ threads then (futures.tail, sink ++ futures.headD [])
  else (futures, sink)

/-- Source lines 48 and 121-125: the final `for` loop writes every remaining future in
order. -/
def drain_all {α β : Type} (st : RunState α β) : List β :=
  st.sink ++ st.futures.flatten

/-! ## `base64::encode` -/

/-- One pass through the body of `while(true)` in `base64::encode` (source lines
35-46), reading at most `c` bytes; `none` is the `break` of line 38. -/
def encode_iter (c threads : Nat) (st : RunState Byte Char) : Option (RunState Byte Char) :=
  let r := st.input.read c
  if r.1.length = 0 then none
  else
    let w := window_push threads st.futures st.sink (encode_chunk r.1)
    some { input := r.2, futures := w.1, sink := w.2, dispatched := st.dispatched ++ [r.1] }

/-- The `while(true)` loop of `base64::encode`, run until its `break`. -/
def encode_while (c threads : Nat) (st : RunState Byte Char) : RunState Byte Char :=
  match h : encode_iter c threads st with
  | none => st
  | some st2 => encode_while c threads st2
termination_by st.input.rest.length
decreasing_by
  unfold encode_iter at h
  simp only at h
  split at h
  · exact absurd h (by simp)
  · rename_i hne
    have hst : st2.input = (st.input.read c).2 := by
      rw [← Option.some.inj h]
    rw [hst]
    unfold IStream.read at hne ⊢
    by_cases hg : st.input.good = true
    · simp only [hg, if_true] at hne ⊢
      simp only [List.length_take, List.length_drop] at hne ⊢
      omega
    · simp [hg] at hne

/-- The state in which a run starts on the input `src`. -/
def run_init {α β : Type} (src : List α) : RunState α β :=
  { input := { rest := src, good := true }, futures := [], sink := [], dispatched := [] }

/-- The run of `base64::encode` with read size `c`: the state at the end of the
`while` loop. -/
def encode_final (c threads : Nat) (src : List Byte) : RunState Byte Char :=
  encode_while c threads (run_init src)

/-- The text a run of `base64::encode` with read size `c` writes. -/
def encode_with (c threads : Nat) (src : List Byte) : List Char :=
  drain_all (encode_final c threads src)

/-- Source lines 26-49: `base64::encode` on the file content `src`; the result is
the content of the output file. -/
def base64_encode (threads : Nat) (src : List Byte) : List Char :=
  encode_with chunkSize threads src

/-! ## `base64::decode` -/

/-- The inner `while` of `base64::decode` (source lines 105-110): extend the buffer
one character at a time until its size is a multiple of 4 or the stream fails. -/
def extend_loop (buf : List Char) (s : IStream Char) : List Char × IStream Char :=
  if buf.length % 4 ≠ 0 ∧ s.good = true then
    match h : s.get with
    | (none, s2) => (buf, s2)
    | (some extra, s2) => extend_loop (buf ++ [extra]) s2
  else (buf, s)
termination_by s.rest.length
decreasing_by
  unfold IStream.get at h
  split at h
  · split at h
    · simp at h
    · rename_i x r hr
      simp only [Prod.mk.injEq, Option.some.injEq] at h
      rw [← h.2, hr]
      simp
  · simp at h

/-- One pass through the body of `while(true)` in `base64::decode` (source lines
99-119), reading `c` characters at first; `none` is the `break` of line 102. -/
def decode_iter (c threads : Nat) (st : RunState Char Byte) : Option (RunState Char Byte) :=
  let r := st.input.read c
  if r.1.length = 0 then none
  else
    let e := extend_loop r.1 r.2
    let w := window_push threads st.futures st.sink (decode_chunk e.1)
    some { input := e.2, futures := w.1, sink := w.2, dispatched := st.dispatched ++ [e.1] }

/-- The `while(true)` loop of `base64::decode`, run until its `break`. -/
def decode_while (c threads : Nat) (st : RunState Char Byte) : RunState Char Byte :=
  match h : decode_iter c threads st with
  | none => st
  | some st2 => decode_while c threads st2
termination_by st.input.rest.length
decreasing_by
  have hget : ∀ s : IStream Char, (s.get).2.rest.length ≤ s.rest.length := by
    intro s
    unfold IStream.get
    split
    · split <;> simp_all
    · simp
  have hext : ∀ (buf : List Char) (s : IStream Char),
      (extend_loop buf s).2.rest.length ≤ s.rest.length := by
    intro buf s
    induction buf, s using extend_loop.induct with
    | case1 buf s hc s2 hg =>
      rw [extend_loop, if_pos hc]
      have := hget s
      split
      · rename_i h1; rw [h1] at this; exact this
      · rename_i h1; rw [h1] at this; rw [hg] at h1; simp at h1
    | case2 buf s hc extra s2 hg ih =>
      rw [extend_loop, if_pos hc]
      have := hget s
      split
      · rename_i h1; rw [hg] at h1; simp at h1
      · rename_i h1
        rw [hg] at h1
        simp only [Prod.mk.injEq, Option.some.injEq] at h1
        rw [← h1.1, ← h1.2]
        rw [hg] at this
        exact le_trans ih this
    | case3 buf s hc =>
      rw [extend_loop, if_neg hc]
  unfold decode_iter at h
  simp only at h
  split at h
  · exact absurd h (by simp)
  · rename_i hne
    have hst : st2.input = (extend_loop (st.input.read c).1 (st.input.read c).2).2 := by
      rw [← Option.some.inj h]
    rw [hst]
    refine lt_of_le_of_lt (hext _ _) ?_
    unfold IStream.read at hne ⊢
    by_cases hg : st.input.good = true
    · simp only [hg, if_true] at hne ⊢
      simp only [List.length_take, List.length_drop] at hne ⊢
      omega
    · simp [hg] at hne

/-- The run of `base64::decode` with read size `c`: the state at the end of the
`while` loop. -/
def decode_final (c threads : Nat) (src : List Char) : RunState Char Byte :=
  decode_while c threads (run_init src)

/-- The bytes a run of `base64::decode` with read size `c` writes. -/
def decode_with (c threads : Nat) (src : List Char) : List Byte :=
  drain_all (decode_final c threads src)

/-- Source lines 90-126: `base64::decode` on the file content `src`; the result is
the content of the output file. -/
def base64_decode (threads : Nat) (src : List Char) : List Byte :=
  decode_with chunkSize threads src

/-! ## Functional descriptions used in the proofs -/

/-- The first 6-bit index computed on source line 18. -/
def sextet0 (a : Nat) : Nat := a >>> 2

/-- The second 6-bit index, source line 19. -/
def sextet1 (a b : Nat) : Nat := ((a &&& 0x03) <<< 4) ||| (b >>> 4)

/-- The third 6-bit index, source line 20. -/
def sextet2 (b c : Nat) : Nat := ((b &&& 0x0F) <<< 2) ||| (c >>> 6)

/-- The fourth 6-bit index, source line 21. -/
def sextet3 (c : Nat) : Nat := c &&& 0x3F

/-- What the loop of `encode_chunk` emits, written group by group. -/
def encode_groups : List Byte → List Char
  | [] => []
  | [a] => [b64_at (sextet0 a.val), b64_at (sextet1 a.val 0), '=', '=']
  | [a, b] => [b64_at (sextet0 a.val), b64_at (sextet1 a.val b.val),
      b64_at (sextet2 b.val 0), '=']
  | a :: b :: c :: rest =>
      b64_at (sextet0 a.val) :: b64_at (sextet1 a.val b.val) :: b64_at (sextet2 b.val c.val) ::
        b64_at (sextet3 c.val) :: encode_groups rest

/-- The value `vals[k]` of source line 75 for the stored character `c`. -/
def symbol_value (c : Char) : Int := if c = '=' then 0 else b64_index c

/-- What `decode_chunk` appends for one complete group `s0 s1 s2 s3` (source lines
73-82). -/
def decode_group (s0 s1 s2 s3 : Char) : List Byte :=
  [toUChar (Int.lor (symbol_value s0 <<< (2 : Int))
      (Int.land (symbol_value s1) 0x30 >>> (4 : Int)))] ++
    (if s2 ≠ '=' then
      [toUChar (Int.lor (Int.land (symbol_value s1) 0xf <<< (4 : Int))
        (Int.land (symbol_value s2) 0x3c >>> (2 : Int)))] else []) ++
    (if s3 ≠ '=' then
      [toUChar (Int.lor (Int.land (symbol_value s2) 0x3 <<< (6 : Int)) (symbol_value s3))]
      else [])

/-- What `decode_chunk` produces on a text made of alphabet and padding characters
only, written group by group; an incomplete last group yields nothing. -/
def decode_groups : List Char → List Byte
  | s0 :: s1 :: s2 :: s3 :: rest => decode_group s0 s1 s2 s3 ++ decode_groups rest
  | _ => []

/-- The scheduling of source lines 40-48 (and 112-125) on an arbitrary sequence of task
results, in the order the tasks are submitted: every result is pushed to the window,
the remaining futures are written at the end; the value is the content of the output. -/
def window_run {β : Type} (threads : Nat) (results : List (List β)) : List β :=
  let w := results.foldl (fun w r => window_push threads w.1 w.2 r) (([] : List (List β)), ([] : List β))
  w.2 ++ w.1.flatten

/-- A stream is consistent when a failed stream has nothing left to read (a stream
fails only by reaching the end of the file). -/
def StreamOK {α : Type} (s : IStream α) : Prop := s.good = true ∨ s.rest = []

/-- The successive pieces of `src` of `n` elements each (the last one possibly
shorter); no piece at all when `n = 0`. -/
def read_chunks {α : Type} (n : Nat) (src : List α) : List (List α) :=
  if n = 0 ∨ src.length = 0 then [] else src.take n :: read_chunks n (src.drop n)
termination_by src.length
decreasing_by
  rename_i h
  simp only [List.length_drop]
  omega

/-- The raw size of the chunks `base64::decode` dispatches when it first reads `c`
characters: `c` rounded up to a multiple of 4. -/
def decode_span (c : Nat) : Nat := (c + 3) / 4 * 4

/-- The number of alphabet-or-padding characters of a text. -/
def symbol_count (s : List Char) : Nat :=
  s.countP (fun c => decide (c ∈ b64_chars ∨ c = '='))

/-- The state after `k` passes through a loop body `step` started in `s`; `none` when
the loop has been left (its `break`) before the `k`-th pass. -/
def run_steps {σ : Type} (step : σ → Option σ) : Nat → σ → Option σ
  | 0, s => some s
  | k + 1, s =>
    match step s with
    | none => none
    | some s2 => run_steps step k s2

/-! ## The workers with every array access and narrowing checked -/

/-- The lookup `b64_chars[i]` with its bound made explicit: no value when `i` is not a
position of the table (0..63). -/
def b64_at_checked (i : Nat) : Option Char := b64_chars[i]?

/-- The loop of `encode_chunk` (source lines 12-22) where every lookup in `b64_chars`
is checked: the result is `none` as soon as an index falls outside the table. -/
def encode_loop_checked (data : List Byte) (i : Nat) (out : List Char) : Option (List Char) :=
  if h : i < data.length then
    let a : Nat := (data[i]).val
    let b : Nat := if h1 : i + 1 < data.length then (data[i + 1]).val else 0
    let c : Nat := if h2 : i + 2 < data.length then (data[i + 2]).val else 0
    (b64_at_checked (a >>> 2)).bind fun c0 =>
    (b64_at_checked (((a &&& 0x03) <<< 4) ||| (b >>> 4))).bind fun c1 =>
    (if i + 1 < data.length then b64_at_checked (((b &&& 0x0F) <<< 2) ||| (c >>> 6))
      else some '=').bind fun c2 =>
    (if i + 2 < data.length then b64_at_checked (c &&& 0x3F) else some '=').bind fun c3 =>
    encode_loop_checked data (i + 3) (out ++ [c0] ++ [c1] ++ [c2] ++ [c3])
  else some out
termination_by data.length - i
decreasing_by omega

/-- The worker `encode_chunk` with every lookup in `b64_chars` checked. -/
def encode_chunk_checked (data : List Byte) : Option (List Char) :=
  encode_loop_checked data 0 []

/-- Narrowing of an `int` to `unsigned char` that refuses a value outside 0..255. -/
def toUChar_checked (x : Int) : Option Byte :=
  if 0 ≤ x ∧ x ≤ 255 then some (toUChar x) else none

/-- One iteration of the loop of `decode_chunk` (source lines 66-86) with every access
checked: the result is `none` when the cursor `i` used to write `a4` is not in 0..3,
when some `vals[k]` is not in 0..63, or when one of the three values assigned to `a3`
is not in 0..255. -/
def decode_step_checked (st : DecodeState) (c : Char) : Option DecodeState :=
  if is_symbol c then
    if st.i < 4 then
      let a4 := st.a4.set st.i c
      let i := st.i + 1
      if i = 4 then
        let vals : Nat → Int := fun k =>
          if a4.getD k '\x00' = '=' then 0 else b64_index (a4.getD k '\x00')
        if ∀ k < 4, 0 ≤ vals k ∧ vals k ≤ 63 then
          (toUChar_checked
            (Int.lor (vals 0 <<< (2 : Int)) (Int.land (vals 1) 0x30 >>> (4 : Int)))).bind
          fun a3_0 =>
          (toUChar_checked (Int.lor (Int.land (vals 1) 0xf <<< (4 : Int))
            (Int.land (vals 2) 0x3c >>> (2 : Int)))).bind
          fun a3_1 =>
          (toUChar_checked (Int.lor (Int.land (vals 2) 0x3 <<< (6 : Int)) (vals 3))).bind
          fun a3_2 =>
          let out := st.out ++ [a3_0]
          let out := if a4.getD 2 '\x00' ≠ '=' then out ++ [a3_1] else out
          let out := if a4.getD 3 '\x00' ≠ '=' then out ++ [a3_2] else out
          some { out := out, a4 := a4, i := 0 }
        else none
      else some { out := st.out, a4 := a4, i := i }
    else none
  else some st

/-- The range-`for` of `decode_chunk` over the checked iteration: it stops with `none`
at the first failed check. -/
def decode_fold_checked : List Char → DecodeState → Option DecodeState
  | [], st => some st
  | c :: rest, st => (decode_step_checked st c).bind (decode_fold_checked rest)

/-- The worker `decode_chunk` with every access checked. -/
def decode_chunk_checked (input : List Char) : Option (List Byte) :=
  (decode_fold_checked input decode_init).map (fun st => st.out)

/-- The invariant of the loop of `decode_chunk`: four slots, a cursor in 0..3, and
only alphabet or padding characters stored below the cursor. -/
def DecodeInv (st : DecodeState) : Prop :=
  st.a4.length = 4 ∧ st.i < 4 ∧ ∀ k < st.i, is_symbol (st.a4.getD k '\x00') = true

end Base64

namespace Base64

/-! ## The encode worker, group by group -/

theorem encode_loop_eq (data : List Byte) (i : Nat) (out : List Char) :
    encode_loop data i out = out ++ encode_groups (data.drop i) := by
  induction i, out using encode_loop.induct data with
  | case1 i out h a b c out1 out2 out3 out4 ih =>
    rw [encode_loop, dif_pos h]
    refine ih.trans ?_
    by_cases h1 : i + 1 < data.length
    · by_cases h2 : i + 2 < data.length
      · rw [List.drop_eq_getElem_cons h, List.drop_eq_getElem_cons h1,
          List.drop_eq_getElem_cons h2]
        simp [encode_groups, sextet0, sextet1, sextet2, sextet3, h1, h2, out4, out3, out2, out1,
          a, b, c]
      · have hd : data.drop (i + 3) = [] := List.drop_eq_nil_of_le (by omega)
        have hd2 : data.drop (i + 2) = [] := List.drop_eq_nil_of_le (by omega)
        rw [List.drop_eq_getElem_cons h, List.drop_eq_getElem_cons h1, hd, hd2]
        simp [encode_groups, sextet0, sextet1, sextet2, sextet3, h1, h2, out4, out3, out2, out1,
          a, b, c]
    · have hd : data.drop (i + 3) = [] := List.drop_eq_nil_of_le (by omega)
      have hd1 : data.drop (i + 1) = [] := List.drop_eq_nil_of_le (by omega)
      have h2 : ¬ i + 2 < data.length := by omega
      rw [List.drop_eq_getElem_cons h, hd, hd1]
      simp [encode_groups, sextet0, sextet1, sextet2, sextet3, h1, h2, out4, out3, out2, out1,
        a, b, c]
  | case2 i out h =>
    rw [encode_loop, dif_neg h]
    have hd : data.drop i = [] := List.drop_eq_nil_of_le (by omega)
    simp [hd, encode_groups]

theorem encode_chunk_eq (data : List Byte) : encode_chunk data = encode_groups data := by
  simp [encode_chunk, encode_loop_eq]

/-! ## The decode worker, group by group -/

theorem decode_fold (input : List Char) :
    ∀ st : DecodeState, st.a4.length = 4 → st.i < 4 →
      (input.foldl decode_step st).out =
        st.out ++ decode_groups (st.a4.take st.i ++ input.filter is_symbol) := by
  induction input with
  | nil =>
    intro st h4 hi
    obtain ⟨out, a4, i⟩ := st
    match a4, h4 with
    | [x0, x1, x2, x3], _ =>
      simp only at hi
      interval_cases i <;> simp [decode_groups]
  | cons c rest ih =>
    intro st h4 hi
    rw [List.foldl_cons]
    by_cases hc : is_symbol c = true
    · obtain ⟨out, a4, i⟩ := st
      match a4, h4 with
      | [x0, x1, x2, x3], _ =>
        simp only at hi
        rw [List.filter_cons_of_pos hc]
        interval_cases i
        · rw [ih _ (by simp [decode_step, hc]) (by simp [decode_step, hc])]
          simp [decode_step, hc]
        · rw [ih _ (by simp [decode_step, hc]) (by simp [decode_step, hc])]
          simp [decode_step, hc]
        · rw [ih _ (by simp [decode_step, hc]) (by simp [decode_step, hc])]
          simp [decode_step, hc]
        · rw [ih _ (by simp [decode_step, hc]) (by simp [decode_step, hc])]
          simp only [decode_step, hc, if_true]
          simp only [List.set, List.getD_cons_zero, List.getD_cons_succ, decode_groups,
            decode_group, symbol_value, List.take, List.append_assoc, List.cons_append,
            List.nil_append]
          split_ifs <;> simp
    · have hst : decode_step st c = st := by simp [decode_step, hc]
      rw [hst, List.filter_cons_of_neg hc]
      exact ih st h4 hi

theorem decode_chunk_eq (input : List Char) :
    decode_chunk input = decode_groups (input.filter is_symbol) := by
  unfold decode_chunk
  rw [decode_fold input decode_init rfl (by decide)]
  simp [decode_init]

/-! ## Alphabet and bit-level facts -/

theorem b64_index_at : ∀ i : Fin 64, b64_index (b64_at i.val) = (i.val : Int) := by decide

theorem b64_at_ne_pad : ∀ i : Fin 64, b64_at i.val ≠ '=' := by decide

theorem b64_chars_length : b64_chars.length = 64 := by decide

theorem symbol_value_at (k : Nat) (h : k < 64) : symbol_value (b64_at k) = (k : Int) := by
  unfold symbol_value
  rw [if_neg (b64_at_ne_pad ⟨k, h⟩)]
  exact b64_index_at ⟨k, h⟩

theorem shl_or (x k y : Nat) (hy : y < 2 ^ k) : (x <<< k) ||| y = x * 2 ^ k + y := by
  rw [Nat.shiftLeft_eq, Nat.mul_comm, ← Nat.mul_add_lt_is_or hy]

theorem toUChar_coe (n : Nat) (h : n < 256) : toUChar (n : Int) = ⟨n, h⟩ := by
  unfold toUChar
  apply Fin.ext
  simp [Fin.ofNat]
  omega

theorem sextet0_eq (a : Nat) : sextet0 a = a / 4 := by
  unfold sextet0; rw [Nat.shiftRight_eq_div_pow]

theorem sextet1_eq (a b : Nat) (hb : b < 256) : sextet1 a b = a % 4 * 16 + b / 16 := by
  unfold sextet1
  have h3 : a &&& 3 = a % 4 := Nat.and_pow_two_sub_one_eq_mod a 2
  have hs : b >>> 4 = b / 16 := by rw [Nat.shiftRight_eq_div_pow]
  rw [h3, hs, shl_or _ 4 _ (by norm_num; omega)]
  norm_num

theorem sextet2_eq (b c : Nat) (hc : c < 256) : sextet2 b c = b % 16 * 4 + c / 64 := by
  unfold sextet2
  have h3 : b &&& 15 = b % 16 := Nat.and_pow_two_sub_one_eq_mod b 4
  have hs : c >>> 6 = c / 64 := by rw [Nat.shiftRight_eq_div_pow]
  rw [h3, hs, shl_or _ 2 _ (by norm_num; omega)]
  norm_num

theorem sextet3_eq (c : Nat) : sextet3 c = c % 64 := by
  unfold sextet3
  exact Nat.and_pow_two_sub_one_eq_mod c 6

theorem mask30 : ∀ v : Fin 64, (v.val &&& 0x30) >>> 4 = v.val / 16 := by decide

theorem mask3c : ∀ v : Fin 64, (v.val &&& 0x3c) >>> 2 = v.val / 4 := by decide

/-- The first byte rebuilt on source line 76, in arithmetic form. -/
theorem octet0_eq (v0 v1 : Nat) (h1 : v1 < 64) :
    (v0 <<< 2) ||| ((v1 &&& 0x30) >>> 4) = v0 * 4 + v1 / 16 := by
  rw [mask30 ⟨v1, h1⟩, shl_or _ 2 _ (by norm_num; omega)]
  norm_num

theorem octet1_eq (v1 v2 : Nat) (h2 : v2 < 64) :
    ((v1 &&& 0xf) <<< 4) ||| ((v2 &&& 0x3c) >>> 2) = v1 % 16 * 16 + v2 / 4 := by
  have h3 : v1 &&& 15 = v1 % 16 := Nat.and_pow_two_sub_one_eq_mod v1 4
  rw [mask3c ⟨v2, h2⟩, h3, shl_or _ 4 _ (by norm_num; omega)]
  norm_num

theorem octet2_eq (v2 v3 : Nat) (h3 : v3 < 64) :
    ((v2 &&& 0x3) <<< 6) ||| v3 = v2 % 4 * 64 + v3 := by
  have h : v2 &&& 3 = v2 % 4 := Nat.and_pow_two_sub_one_eq_mod v2 2
  rw [h, shl_or _ 6 _ (by norm_num; omega)]
  norm_num

theorem decode_group_values (s0 s1 s2 s3 : Char) (v0 v1 v2 v3 : Nat)
    (e0 : symbol_value s0 = v0) (e1 : symbol_value s1 = v1) (e2 : symbol_value s2 = v2)
    (e3 : symbol_value s3 = v3) :
    decode_group s0 s1 s2 s3 =
      [toUChar (((v0 <<< 2) ||| ((v1 &&& 0x30) >>> 4) : Nat) : Int)] ++
      (if s2 ≠ '=' then [toUChar ((((v1 &&& 0xf) <<< 4) ||| ((v2 &&& 0x3c) >>> 2) : Nat) : Int)]
        else []) ++
      (if s3 ≠ '=' then [toUChar ((((v2 &&& 0x3) <<< 6) ||| v3 : Nat) : Int)] else []) := by
  unfold decode_group
  rw [e0, e1, e2, e3]
  rfl

theorem symbol_value_pad : symbol_value '=' = ((0 : Nat) : Int) := by decide

theorem decode_group_full (a b c : Byte) :
    decode_group (b64_at (sextet0 a.val)) (b64_at (sextet1 a.val b.val))
      (b64_at (sextet2 b.val c.val)) (b64_at (sextet3 c.val)) = [a, b, c] := by
  have ha := a.isLt
  have hb := b.isLt
  have hc := c.isLt
  have k0 : sextet0 a.val < 64 := by rw [sextet0_eq]; omega
  have k1 : sextet1 a.val b.val < 64 := by rw [sextet1_eq _ _ hb]; omega
  have k2 : sextet2 b.val c.val < 64 := by rw [sextet2_eq _ _ hc]; omega
  have k3 : sextet3 c.val < 64 := by rw [sextet3_eq]; omega
  rw [decode_group_values _ _ _ _ _ _ _ _ (symbol_value_at _ k0) (symbol_value_at _ k1)
    (symbol_value_at _ k2) (symbol_value_at _ k3)]
  rw [if_pos (b64_at_ne_pad ⟨_, k2⟩), if_pos (b64_at_ne_pad ⟨_, k3⟩)]
  rw [octet0_eq _ _ k1, octet1_eq _ _ k2, octet2_eq _ _ k3]
  rw [sextet0_eq, sextet1_eq _ _ hb, sextet2_eq _ _ hc, sextet3_eq]
  have r0 : a.val / 4 * 4 + (a.val % 4 * 16 + b.val / 16) / 16 = a.val := by omega
  have r1 : (a.val % 4 * 16 + b.val / 16) % 16 * 16 + (b.val % 16 * 4 + c.val / 64) / 4 = b.val := by
    omega
  have r2 : (b.val % 16 * 4 + c.val / 64) % 4 * 64 + c.val % 64 = c.val := by omega
  rw [r0, r1, r2, toUChar_coe _ ha, toUChar_coe _ hb, toUChar_coe _ hc]
  rfl

theorem decode_group_one (a : Byte) :
    decode_group (b64_at (sextet0 a.val)) (b64_at (sextet1 a.val 0)) '=' '=' = [a] := by
  have ha := a.isLt
  have k0 : sextet0 a.val < 64 := by rw [sextet0_eq]; omega
  have k1 : sextet1 a.val 0 < 64 := by rw [sextet1_eq _ _ (by norm_num)]; omega
  rw [decode_group_values _ _ _ _ _ _ _ _ (symbol_value_at _ k0) (symbol_value_at _ k1)
    symbol_value_pad symbol_value_pad]
  rw [if_neg (by simp), if_neg (by simp)]
  rw [octet0_eq _ _ k1, sextet0_eq, sextet1_eq _ _ (by norm_num)]
  have r0 : a.val / 4 * 4 + (a.val % 4 * 16 + 0 / 16) / 16 = a.val := by omega
  rw [r0, toUChar_coe _ ha]
  rfl

theorem decode_group_two (a b : Byte) :
    decode_group (b64_at (sextet0 a.val)) (b64_at (sextet1 a.val b.val))
      (b64_at (sextet2 b.val 0)) '=' = [a, b] := by
  have ha := a.isLt
  have hb := b.isLt
  have k0 : sextet0 a.val < 64 := by rw [sextet0_eq]; omega
  have k1 : sextet1 a.val b.val < 64 := by rw [sextet1_eq _ _ hb]; omega
  have k2 : sextet2 b.val 0 < 64 := by rw [sextet2_eq _ _ (by norm_num)]; omega
  rw [decode_group_values _ _ _ _ _ _ _ _ (symbol_value_at _ k0) (symbol_value_at _ k1)
    (symbol_value_at _ k2) symbol_value_pad]
  rw [if_pos (b64_at_ne_pad ⟨_, k2⟩), if_neg (by simp)]
  rw [octet0_eq _ _ k1, octet1_eq _ _ k2]
  rw [sextet0_eq, sextet1_eq _ _ hb, sextet2_eq _ _ (by norm_num)]
  have r0 : a.val / 4 * 4 + (a.val % 4 * 16 + b.val / 16) / 16 = a.val := by omega
  have r1 : (a.val % 4 * 16 + b.val / 16) % 16 * 16 + (b.val % 16 * 4 + 0 / 64) / 4 = b.val := by
    omega
  rw [r0, r1, toUChar_coe _ ha, toUChar_coe _ hb]
  rfl

theorem is_symbol_at : ∀ i : Fin 64, is_symbol (b64_at i.val) = true := by decide

theorem is_symbol_pad : is_symbol '=' = true := by decide

theorem sextet0_lt (a : Byte) : sextet0 a.val < 64 := by
  have := a.isLt
  rw [sextet0_eq]; omega

theorem sextet1_lt (a : Nat) (b : Nat) (hb : b < 256) : sextet1 a b < 64 := by
  rw [sextet1_eq _ _ hb]; omega

theorem sextet2_lt (b : Nat) (c : Nat) (hc : c < 256) : sextet2 b c < 64 := by
  rw [sextet2_eq _ _ hc]; omega

theorem sextet3_lt (c : Nat) : sextet3 c < 64 := by
  rw [sextet3_eq]; omega

/-- Every character `encode_chunk` emits is an alphabet symbol or the padding. -/
theorem encode_groups_symbols (B : List Byte) : ∀ x ∈ encode_groups B, is_symbol x = true := by
  induction B using encode_groups.induct with
  | case1 => simp [encode_groups]
  | case2 a =>
    intro x hx
    simp only [encode_groups, List.mem_cons, List.mem_singleton, List.not_mem_nil, or_false] at hx
    rcases hx with h | h | h | h
    · rw [h]; exact is_symbol_at ⟨_, sextet0_lt a⟩
    · rw [h]; exact is_symbol_at ⟨_, sextet1_lt _ _ (by norm_num)⟩
    · rw [h]; exact is_symbol_pad
    · rw [h]; exact is_symbol_pad
  | case3 a b =>
    intro x hx
    simp only [encode_groups, List.mem_cons, List.mem_singleton, List.not_mem_nil, or_false] at hx
    rcases hx with h | h | h | h
    · rw [h]; exact is_symbol_at ⟨_, sextet0_lt a⟩
    · rw [h]; exact is_symbol_at ⟨_, sextet1_lt _ _ b.isLt⟩
    · rw [h]; exact is_symbol_at ⟨_, sextet2_lt _ _ (by norm_num)⟩
    · rw [h]; exact is_symbol_pad
  | case4 a b c rest ih =>
    intro x hx
    simp only [encode_groups, List.mem_cons] at hx
    rcases hx with h | h | h | h | h
    · rw [h]; exact is_symbol_at ⟨_, sextet0_lt a⟩
    · rw [h]; exact is_symbol_at ⟨_, sextet1_lt _ _ b.isLt⟩
    · rw [h]; exact is_symbol_at ⟨_, sextet2_lt _ _ c.isLt⟩
    · rw [h]; exact is_symbol_at ⟨_, sextet3_lt _⟩
    · exact ih x h

theorem decode_groups_encode_groups (B : List Byte) :
    decode_groups (encode_groups B) = B := by
  induction B using encode_groups.induct with
  | case1 => simp [encode_groups, decode_groups]
  | case2 a => simp [encode_groups, decode_groups, decode_group_one]
  | case3 a b => simp [encode_groups, decode_groups, decode_group_two]
  | case4 a b c rest ih => simp [encode_groups, decode_groups, decode_group_full, ih]

theorem decode_chunk_encode_chunk (B : List Byte) : decode_chunk (encode_chunk B) = B := by
  rw [decode_chunk_eq, encode_chunk_eq,
    List.filter_eq_self.mpr (encode_groups_symbols B), decode_groups_encode_groups]

/-! ## Chunking -/

theorem read_chunks_stop {α : Type} (n : Nat) (src : List α) (h : n = 0 ∨ src = []) :
    read_chunks n src = [] := by
  rw [read_chunks, if_pos (by rcases h with h | h; exact Or.inl h; exact Or.inr (by rw [h]; rfl))]

theorem read_chunks_step {α : Type} (n : Nat) (src : List α) (hn : 0 < n) (hs : src ≠ []) :
    read_chunks n src = src.take n :: read_chunks n (src.drop n) := by
  rw [read_chunks, if_neg (by
    intro h
    rcases h with h | h
    · omega
    · exact hs (List.length_eq_zero.mp h))]

theorem read_chunks_flatten {α : Type} (n : Nat) (hn : 0 < n) (src : List α) :
    (read_chunks n src).flatten = src := by
  induction src using read_chunks.induct n with
  | case1 src h =>
    rcases h with h | h
    · omega
    · have h0 := List.length_eq_zero.mp h
      rw [read_chunks_stop n src (Or.inr h0), h0]; rfl
  | case2 src h ih =>
    have hs : src ≠ [] := fun e => h (Or.inr (by rw [e]; rfl))
    rw [read_chunks_step n src hn hs, List.flatten_cons, ih, List.take_append_drop]

/-- A source longer than one chunk and at most two chunks long is read as exactly two
chunks. -/
theorem read_chunks_two {α : Type} (n : Nat) (src : List α) (h1 : n < src.length)
    (h2 : src.length ≤ 2 * n) : read_chunks n src = [src.take n, src.drop n] := by
  have hn : 0 < n := by omega
  have hs : src ≠ [] := by intro e; rw [e] at h1; simp at h1
  have hd : src.drop n ≠ [] := by
    intro e
    have := congrArg List.length e
    simp only [List.length_drop, List.length_nil] at this
    omega
  rw [read_chunks_step n src hn hs, read_chunks_step n _ hn hd]
  have ht : (src.drop n).take n = src.drop n := by
    apply List.take_of_length_le
    simp only [List.length_drop]; omega
  have hdd : (src.drop n).drop n = [] := by
    apply List.drop_eq_nil_of_le
    simp only [List.length_drop]; omega
  rw [ht, hdd, read_chunks_stop n [] (Or.inr rfl)]

/-! ## The bounded window -/

theorem window_push_drain {β : Type} (threads : Nat) (futures : List (List β)) (sink r : List β) :
    (window_push threads futures sink r).2 ++ (window_push threads futures sink r).1.flatten =
      sink ++ futures.flatten ++ r := by
  unfold window_push
  simp only
  split
  · cases futures with
    | nil => simp
    | cons f fs => simp
  · simp

/-! ## The run of `base64::encode` -/

theorem read_spec {α : Type} (s : IStream α) (c : Nat) (hs : StreamOK s) :
    (s.read c).1 = s.rest.take c ∧ (s.read c).2.rest = s.rest.drop c ∧
      StreamOK (s.read c).2 ∧ ((s.read c).2.good = true ↔ s.good = true ∧ c ≤ s.rest.length) := by
  unfold IStream.read
  by_cases hg : s.good = true
  · simp only [hg, if_true, true_and, decide_eq_true_eq]
    refine ⟨?_, trivial⟩
    unfold StreamOK
    simp only [decide_eq_true_eq, List.drop_eq_nil_iff]
    omega
  · have hr : s.rest = [] := by
      rcases hs with h | h
      · exact absurd h hg
      · exact h
    simp [hg, hr, StreamOK]

theorem encode_while_none (c threads : Nat) (st : RunState Byte Char)
    (h : encode_iter c threads st = none) : encode_while c threads st = st := by
  rw [encode_while]
  split
  · rfl
  · rename_i h2; rw [h] at h2; simp at h2

theorem encode_while_some (c threads : Nat) (st st2 : RunState Byte Char)
    (h : encode_iter c threads st = some st2) :
    encode_while c threads st = encode_while c threads st2 := by
  rw [encode_while]
  split
  · rename_i h2; rw [h] at h2; simp at h2
  · rename_i st3 h2
    rw [h] at h2
    rw [Option.some.inj h2]

/-- One iteration of the encode loop on a consistent stream, made explicit. -/
theorem encode_iter_spec (c threads : Nat) (st : RunState Byte Char) (hc : 0 < c)
    (hs : StreamOK st.input) :
    (st.input.rest = [] → encode_iter c threads st = none) ∧
    (st.input.rest ≠ [] → ∃ st2, encode_iter c threads st = some st2 ∧
      st2.input.rest = st.input.rest.drop c ∧ StreamOK st2.input ∧
      st2.dispatched = st.dispatched ++ [st.input.rest.take c] ∧
      drain_all st2 = drain_all st ++ encode_chunk (st.input.rest.take c)) := by
  obtain ⟨h1, h2, h3, -⟩ := read_spec st.input c hs
  constructor
  · intro he
    unfold encode_iter
    simp only [h1, he, List.take_nil, List.length_nil, if_true]
  · intro hne
    have hlen : ¬ ((st.input.read c).1.length = 0) := by
      rw [h1, List.length_take]
      have := List.length_pos.mpr hne
      omega
    refine ⟨_, by unfold encode_iter; simp only [hlen, if_false]; rfl, h2, h3, ?_, ?_⟩
    · simp only [h1]
    · simp only [drain_all, h1]
      rw [window_push_drain]

theorem encode_while_spec (c threads : Nat) (hc : 0 < c) (st : RunState Byte Char) :
    StreamOK st.input →
    (encode_while c threads st).dispatched = st.dispatched ++ read_chunks c st.input.rest ∧
    drain_all (encode_while c threads st) =
      drain_all st ++ ((read_chunks c st.input.rest).map encode_chunk).flatten := by
  induction st using encode_while.induct c threads with
  | case1 st h =>
    intro hs
    have hr : st.input.rest = [] := by
      by_contra hne
      obtain ⟨st2, h2, -⟩ := (encode_iter_spec c threads st hc hs).2 hne
      rw [h] at h2; simp at h2
    rw [encode_while_none c threads st h, hr, read_chunks_stop c [] (Or.inr rfl)]
    simp
  | case2 st st2 h ih =>
    intro hs
    have hne : st.input.rest ≠ [] := by
      intro he
      have := (encode_iter_spec c threads st hc hs).1 he
      rw [h] at this; simp at this
    obtain ⟨st3, h3, hrest, hok, hdisp, hdrain⟩ := (encode_iter_spec c threads st hc hs).2 hne
    rw [h] at h3
    have e : st2 = st3 := Option.some.inj h3
    subst e
    obtain ⟨ih1, ih2⟩ := ih hok
    rw [encode_while_some c threads st st2 h, ih1, ih2, hdisp, hrest, hdrain,
      read_chunks_step c _ hc hne]
    simp

theorem streamOK_init {α β : Type} (src : List α) :
    StreamOK (run_init src : RunState α β).input := Or.inl rfl

/-- The run of `base64::encode` hands the worker the successive `c`-byte pieces of the
source and writes the workers' results in that order. -/
theorem encode_with_eq (c threads : Nat) (hc : 0 < c) (src : List Byte) :
    (encode_final c threads src).dispatched = read_chunks c src ∧
    encode_with c threads src = ((read_chunks c src).map encode_chunk).flatten := by
  have h := encode_while_spec c threads hc (run_init src) (streamOK_init src)
  exact ⟨by simpa [encode_final, run_init] using h.1,
    by simpa [encode_with, encode_final, run_init, drain_all] using h.2⟩

/-! ## The run of `base64::decode` -/

theorem extend_loop_stop (buf : List Char) (s : IStream Char)
    (hc : ¬(buf.length % 4 ≠ 0 ∧ s.good = true)) : extend_loop buf s = (buf, s) := by
  rw [extend_loop, if_neg hc]

theorem extend_loop_none (buf : List Char) (s s2 : IStream Char)
    (hc : buf.length % 4 ≠ 0 ∧ s.good = true) (hg : s.get = (none, s2)) :
    extend_loop buf s = (buf, s2) := by
  rw [extend_loop, if_pos hc]
  split
  · rename_i h; rw [hg] at h; simp only [Prod.mk.injEq] at h; rw [h.2]
  · rename_i h; rw [hg] at h; simp at h

theorem extend_loop_some (buf : List Char) (s s2 : IStream Char) (x : Char)
    (hc : buf.length % 4 ≠ 0 ∧ s.good = true) (hg : s.get = (some x, s2)) :
    extend_loop buf s = extend_loop (buf ++ [x]) s2 := by
  rw [extend_loop, if_pos hc]
  split
  · rename_i h; rw [hg] at h; simp at h
  · rename_i h; rw [hg] at h; simp only [Prod.mk.injEq, Option.some.injEq] at h; rw [h.1, h.2]

theorem get_none_spec {α : Type} (s s2 : IStream α) (hg : s.good = true)
    (h : s.get = (none, s2)) : s.rest = [] ∧ s2 = { rest := [], good := false } := by
  unfold IStream.get at h
  rw [if_pos hg] at h
  split at h
  · rename_i hr
    exact ⟨hr, (Prod.mk.inj h).2.symm⟩
  · simp at h

theorem get_some_spec {α : Type} (s s2 : IStream α) (x : α)
    (h : s.get = (some x, s2)) : s.rest = x :: s2.rest ∧ s2.good = true := by
  unfold IStream.get at h
  split at h
  · split at h
    · simp at h
    · rename_i y r hr
      simp only [Prod.mk.injEq, Option.some.injEq] at h
      rw [← h.2, hr, h.1]
      exact ⟨rfl, rfl⟩
  · simp at h

/-- The inner loop of the decode reader appends the next characters of the stream
until the buffer size is a multiple of 4 or the stream is exhausted. -/
theorem extend_loop_spec (buf : List Char) (s : IStream Char) :
    StreamOK s →
    (extend_loop buf s).1 = buf ++ s.rest.take ((4 - buf.length % 4) % 4) ∧
    (extend_loop buf s).2.rest = s.rest.drop ((4 - buf.length % 4) % 4) ∧
    StreamOK (extend_loop buf s).2 := by
  induction buf, s using extend_loop.induct with
  | case1 buf s hc s2 hg =>
    intro _
    obtain ⟨hr, hs2⟩ := get_none_spec s s2 hc.2 hg
    rw [extend_loop_none buf s s2 hc hg, hr, hs2]
    simp [StreamOK]
  | case2 buf s hc extra s2 hg ih =>
    intro _
    obtain ⟨hr, hgood⟩ := get_some_spec s s2 extra hg
    obtain ⟨ih1, ih2, ih3⟩ := ih (Or.inl hgood)
    rw [extend_loop_some buf s s2 extra hc hg]
    have hm : (4 - buf.length % 4) % 4 = (4 - (buf ++ [extra]).length % 4) % 4 + 1 := by
      have := hc.1
      simp only [List.length_append, List.length_singleton]
      omega
    rw [hm, hr, ih1, ih2]
    refine ⟨?_, ?_, ih3⟩
    · simp
    · simp
  | case3 buf s hc =>
    intro hs
    rw [extend_loop_stop buf s hc]
    by_cases h4 : buf.length % 4 = 0
    · simp [h4, hs]
    · have hg : ¬ s.good = true := fun hg => hc ⟨h4, hg⟩
      have hr : s.rest = [] := by
        rcases hs with h | h
        · exact absurd h hg
        · exact h
      simp [hr, hs]

theorem decode_while_none (c threads : Nat) (st : RunState Char Byte)
    (h : decode_iter c threads st = none) : decode_while c threads st = st := by
  rw [decode_while]
  split
  · rfl
  · rename_i h2; rw [h] at h2; simp at h2

theorem decode_while_some (c threads : Nat) (st st2 : RunState Char Byte)
    (h : decode_iter c threads st = some st2) :
    decode_while c threads st = decode_while c threads st2 := by
  rw [decode_while]
  split
  · rename_i h2; rw [h] at h2; simp at h2
  · rename_i st3 h2
    rw [h] at h2
    rw [Option.some.inj h2]

theorem decode_span_ge (c : Nat) : c ≤ decode_span c := by
  unfold decode_span; omega

/-- What the decode reader puts in one chunk: the first `decode_span c` characters
left, or all of them when fewer are left. -/
theorem decode_read_spec (c : Nat) (s : IStream Char) (hs : StreamOK s) :
    (extend_loop (s.read c).1 (s.read c).2).1 = s.rest.take (decode_span c) ∧
    (extend_loop (s.read c).1 (s.read c).2).2.rest = s.rest.drop (decode_span c) ∧
    StreamOK (extend_loop (s.read c).1 (s.read c).2).2 := by
  obtain ⟨h1, h2, h3, h4⟩ := read_spec s c hs
  obtain ⟨e1, e2, e3⟩ := extend_loop_spec (s.read c).1 (s.read c).2 h3
  refine ⟨?_, ?_, e3⟩
  · rw [e1, h1, h2]
    by_cases hle : c ≤ s.rest.length
    · have hm : decode_span c = c + (4 - (List.take c s.rest).length % 4) % 4 := by
        rw [List.length_take, Nat.min_eq_left hle]
        unfold decode_span; omega
      rw [hm, List.take_add]
    · have hd : List.drop c s.rest = [] := List.drop_eq_nil_of_le (by omega)
      have ht : List.take (decode_span c) s.rest = s.rest :=
        List.take_of_length_le (by have := decode_span_ge c; omega)
      have ht2 : List.take c s.rest = s.rest := List.take_of_length_le (by omega)
      rw [hd, ht, ht2]
      simp
  · rw [e2, h2, h1]
    by_cases hle : c ≤ s.rest.length
    · have hm : decode_span c = c + (4 - (List.take c s.rest).length % 4) % 4 := by
        rw [List.length_take, Nat.min_eq_left hle]
        unfold decode_span; omega
      rw [hm, List.drop_drop, Nat.add_comm]
    · have hd : List.drop c s.rest = [] := List.drop_eq_nil_of_le (by omega)
      have hd2 : List.drop (decode_span c) s.rest = [] :=
        List.drop_eq_nil_of_le (by have := decode_span_ge c; omega)
      rw [hd, hd2]
      simp

/-- One iteration of the decode loop on a consistent stream, made explicit. -/
theorem decode_iter_spec (c threads : Nat) (st : RunState Char Byte) (hc : 0 < c)
    (hs : StreamOK st.input) :
    (st.input.rest = [] → decode_iter c threads st = none) ∧
    (st.input.rest ≠ [] → ∃ st2, decode_iter c threads st = some st2 ∧
      st2.input.rest = st.input.rest.drop (decode_span c) ∧ StreamOK st2.input ∧
      st2.dispatched = st.dispatched ++ [st.input.rest.take (decode_span c)] ∧
      drain_all st2 = drain_all st ++ decode_chunk (st.input.rest.take (decode_span c))) := by
  obtain ⟨h1, -, -, -⟩ := read_spec st.input c hs
  obtain ⟨e1, e2, e3⟩ := decode_read_spec c st.input hs
  constructor
  · intro he
    unfold decode_iter
    simp only [h1, he, List.take_nil, List.length_nil, if_true]
  · intro hne
    have hlen : ¬ ((st.input.read c).1.length = 0) := by
      rw [h1, List.length_take]
      have := List.length_pos.mpr hne
      omega
    refine ⟨_, by unfold decode_iter; simp only [hlen, if_false]; rfl, e2, e3, ?_, ?_⟩
    · simp only [e1]
    · simp only [drain_all, e1]
      rw [window_push_drain]

theorem decode_while_spec (c threads : Nat) (hc : 0 < c) (st : RunState Char Byte) :
    StreamOK st.input →
    (decode_while c threads st).dispatched =
      st.dispatched ++ read_chunks (decode_span c) st.input.rest ∧
    drain_all (decode_while c threads st) =
      drain_all st ++ ((read_chunks (decode_span c) st.input.rest).map decode_chunk).flatten := by
  have hspan : 0 < decode_span c := lt_of_lt_of_le hc (decode_span_ge c)
  induction st using decode_while.induct c threads with
  | case1 st h =>
    intro hs
    have hr : st.input.rest = [] := by
      by_contra hne
      obtain ⟨st2, h2, -⟩ := (decode_iter_spec c threads st hc hs).2 hne
      rw [h] at h2; simp at h2
    rw [decode_while_none c threads st h, hr, read_chunks_stop _ [] (Or.inr rfl)]
    simp
  | case2 st st2 h ih =>
    intro hs
    have hne : st.input.rest ≠ [] := by
      intro he
      have := (decode_iter_spec c threads st hc hs).1 he
      rw [h] at this; simp at this
    obtain ⟨st3, h3, hrest, hok, hdisp, hdrain⟩ := (decode_iter_spec c threads st hc hs).2 hne
    rw [h] at h3
    have e : st2 = st3 := Option.some.inj h3
    subst e
    obtain ⟨ih1, ih2⟩ := ih hok
    rw [decode_while_some c threads st st2 h, ih1, ih2, hdisp, hrest, hdrain,
      read_chunks_step _ _ hspan hne]
    simp

/-- The run of `base64::decode` hands the worker the successive pieces of
`decode_span c` characters of the source and writes the workers' results in that
order. -/
theorem decode_with_eq (c threads : Nat) (hc : 0 < c) (src : List Char) :
    (decode_final c threads src).dispatched = read_chunks (decode_span c) src ∧
    decode_with c threads src = ((read_chunks (decode_span c) src).map decode_chunk).flatten := by
  have h := decode_while_spec c threads hc (run_init src) (streamOK_init src)
  exact ⟨by simpa [decode_final, run_init] using h.1,
    by simpa [decode_with, decode_final, run_init, drain_all] using h.2⟩

/-! ## Workers and chunk boundaries -/

theorem encode_groups_append (xs ys : List Byte) (h : xs.length % 3 = 0) :
    encode_groups (xs ++ ys) = encode_groups xs ++ encode_groups ys := by
  induction xs using encode_groups.induct with
  | case1 => simp [encode_groups]
  | case2 a => simp at h
  | case3 a b => simp at h
  | case4 a b c rest ih =>
    have hr : rest.length % 3 = 0 := by
      simp only [List.length_cons] at h
      omega
    simp [encode_groups, ih hr]

theorem encode_groups_length (B : List Byte) :
    (encode_groups B).length = (B.length + 2) / 3 * 4 := by
  induction B using encode_groups.induct with
  | case1 => simp [encode_groups]
  | case2 a => simp [encode_groups]
  | case3 a b => simp [encode_groups]
  | case4 a b c rest ih =>
    simp only [encode_groups, List.length_cons, ih]
    omega

theorem encode_chunk_length (B : List Byte) :
    (encode_chunk B).length = (B.length + 2) / 3 * 4 := by
  rw [encode_chunk_eq, encode_groups_length]

/-- Encoding piece by piece equals encoding in one piece when the piece size is a
multiple of 3. -/
theorem encode_chunks_aligned (n : Nat) (hn : 0 < n) (h3 : n % 3 = 0) (src : List Byte) :
    ((read_chunks n src).map encode_chunk).flatten = encode_chunk src := by
  induction src using read_chunks.induct n with
  | case1 src h =>
    rcases h with h | h
    · omega
    · have h0 := List.length_eq_zero.mp h
      rw [read_chunks_stop n src (Or.inr h0), h0]
      simp [encode_chunk_eq, encode_groups]
  | case2 src h ih =>
    have hs : src ≠ [] := fun e => h (Or.inr (by rw [e]; rfl))
    rw [read_chunks_step n src hn hs, List.map_cons, List.flatten_cons, ih]
    by_cases hle : n ≤ src.length
    · have hl : (src.take n).length % 3 = 0 := by
        rw [List.length_take, Nat.min_eq_left hle]; exact h3
      rw [encode_chunk_eq, encode_chunk_eq, ← encode_groups_append _ _ hl,
        List.take_append_drop, encode_chunk_eq]
    · have ht : src.take n = src := List.take_of_length_le (by omega)
      have hd : src.drop n = [] := List.drop_eq_nil_of_le (by omega)
      rw [ht, hd]
      simp [encode_chunk_eq, encode_groups]

theorem decode_groups_append (n : Nat) :
    ∀ xs ys : List Char, xs.length = 4 * n →
      decode_groups (xs ++ ys) = decode_groups xs ++ decode_groups ys := by
  induction n with
  | zero =>
    intro xs ys h
    have h0 : xs = [] := List.length_eq_zero.mp (by omega)
    rw [h0]
    simp [decode_groups]
  | succ k ih =>
    intro xs ys h
    match xs, h with
    | s0 :: s1 :: s2 :: s3 :: rest, h =>
      have hr : rest.length = 4 * k := by
        simp only [List.length_cons] at h
        omega
      simp [decode_groups, ih rest ys hr]

/-- Decoding is compositional at a boundary where the number of alphabet-or-padding
characters read so far is a multiple of 4. -/
theorem decode_chunk_append (s t : List Char) (h : (s.filter is_symbol).length % 4 = 0) :
    decode_chunk (s ++ t) = decode_chunk s ++ decode_chunk t := by
  rw [decode_chunk_eq, decode_chunk_eq, decode_chunk_eq, List.filter_append]
  exact decode_groups_append ((s.filter is_symbol).length / 4) _ _ (by omega)

theorem decode_chunk_nil : decode_chunk [] = [] := rfl

/-- Decoding piece by piece equals decoding in one piece when the text holds alphabet
and padding characters only and the piece size is a multiple of 4. -/
theorem decode_chunks_aligned (n : Nat) (hn : 0 < n) (h4 : n % 4 = 0) (src : List Char) :
    (∀ x ∈ src, is_symbol x = true) →
    ((read_chunks n src).map decode_chunk).flatten = decode_chunk src := by
  induction src using read_chunks.induct n with
  | case1 src h =>
    intro _
    rcases h with h | h
    · omega
    · have h0 := List.length_eq_zero.mp h
      rw [read_chunks_stop n src (Or.inr h0), h0]
      rfl
  | case2 src h ih =>
    intro hsym
    have hs : src ≠ [] := fun e => h (Or.inr (by rw [e]; rfl))
    have hsd : ∀ x ∈ src.drop n, is_symbol x = true :=
      fun x hx => hsym x (List.mem_of_mem_drop hx)
    have hst : ∀ x ∈ src.take n, is_symbol x = true :=
      fun x hx => hsym x (List.mem_of_mem_take hx)
    rw [read_chunks_step n src hn hs, List.map_cons, List.flatten_cons, ih hsd]
    by_cases hle : n ≤ src.length
    · have hl : ((src.take n).filter is_symbol).length % 4 = 0 := by
        rw [List.filter_eq_self.mpr hst, List.length_take, Nat.min_eq_left hle]; exact h4
      rw [← decode_chunk_append _ _ hl, List.take_append_drop]
    · have ht : src.take n = src := List.take_of_length_le (by omega)
      have hd : src.drop n = [] := List.drop_eq_nil_of_le (by omega)
      rw [ht, hd, decode_chunk_nil, List.append_nil]

theorem encode_chunk_symbols (B : List Byte) : ∀ x ∈ encode_chunk B, is_symbol x = true := by
  rw [encode_chunk_eq]; exact encode_groups_symbols B

/-- Decoding a concatenation of separately encoded buffers gives the concatenation of
the buffers, padding in the middle of the text included. -/
theorem decode_chunk_encoded_chunks (chunks : List (List Byte)) :
    decode_chunk ((chunks.map encode_chunk).flatten) = chunks.flatten := by
  induction chunks with
  | nil => rfl
  | cons ch rest ih =>
    have hl : ((encode_chunk ch).filter is_symbol).length % 4 = 0 := by
      rw [List.filter_eq_self.mpr (encode_chunk_symbols ch), encode_chunk_length]
      omega
    rw [List.map_cons, List.flatten_cons, decode_chunk_append _ _ hl,
      decode_chunk_encode_chunk, ih, List.flatten_cons]

theorem encoded_chunks_symbols (chunks : List (List Byte)) :
    ∀ x ∈ (chunks.map encode_chunk).flatten, is_symbol x = true := by
  intro x hx
  simp only [List.mem_flatten, List.mem_map] at hx
  obtain ⟨l, ⟨ch, -, hl⟩, hxl⟩ := hx
  rw [← hl] at hxl
  exact encode_chunk_symbols ch x hxl

theorem chunkSize_pos : 0 < chunkSize := by decide

theorem decode_span_mod (c : Nat) : decode_span c % 4 = 0 := by
  unfold decode_span; omega

theorem decode_encode_with (c1 c2 t1 t2 : Nat) (h1 : 0 < c1) (h2 : 0 < c2) (B : List Byte) :
    decode_with c2 t2 (encode_with c1 t1 B) = B := by
  rw [(encode_with_eq c1 t1 h1 B).2, (decode_with_eq c2 t2 h2 _).2,
    decode_chunks_aligned _ (lt_of_lt_of_le h2 (decode_span_ge c2)) (decode_span_mod c2) _
      (encoded_chunks_symbols _),
    decode_chunk_encoded_chunks, read_chunks_flatten c1 h1]

/-! ## Runs on a source a little longer than one chunk -/

theorem encode_groups_pad_two (B : List Byte) (h : B.length % 3 = 1) :
    ∃ pre, encode_groups B = pre ++ ['=', '='] := by
  induction B using encode_groups.induct with
  | case1 => simp at h
  | case2 a => exact ⟨[b64_at (sextet0 a.val), b64_at (sextet1 a.val 0)], rfl⟩
  | case3 a b => simp at h
  | case4 a b c rest ih =>
    have hr : rest.length % 3 = 1 := by
      simp only [List.length_cons] at h
      omega
    obtain ⟨pre, hp⟩ := ih hr
    exact ⟨b64_at (sextet0 a.val) :: b64_at (sextet1 a.val b.val) ::
      b64_at (sextet2 b.val c.val) :: b64_at (sextet3 c.val) :: pre, by simp [encode_groups, hp]⟩

/-- The encode run on a source one byte longer than the read size. -/
theorem encode_with_one_more (c threads : Nat) (hc : 1 < c) (B : List Byte)
    (hB : B.length = c + 1) :
    (encode_final c threads B).dispatched = [B.take c, B.drop c] ∧
    encode_with c threads B = encode_chunk (B.take c) ++ encode_chunk (B.drop c) ∧
    (B.take c).length = c ∧ (B.drop c).length = 1 := by
  have h0 : 0 < c := by omega
  obtain ⟨h1, h2⟩ := encode_with_eq c threads h0 B
  have h3 := read_chunks_two c B (by omega) (by omega)
  rw [h3] at h1 h2
  refine ⟨h1, by simpa using h2, ?_, ?_⟩
  · rw [List.length_take]; omega
  · rw [List.length_drop]; omega

theorem encode_one_past_chunkSize (threads : Nat) (B : List Byte) (hB : B.length = chunkSize + 1) :
    (∃ first rest, (encode_final chunkSize threads B).dispatched = first :: rest ∧ rest ≠ [] ∧
      first.length = 1048576) ∧
    (base64_encode threads B).length = 1398108 ∧
    (encode_chunk B).length = 1398104 ∧
    (∃ pre post, base64_encode threads B = pre ++ '=' :: '=' :: post ∧ post.length = 4) := by
  obtain ⟨h1, h2, h3, h4⟩ := encode_with_one_more chunkSize threads (by decide) B hB
  refine ⟨⟨_, _, h1, by simp, h3⟩, ?_, ?_, ?_⟩
  · unfold base64_encode
    rw [h2, List.length_append, encode_chunk_length, encode_chunk_length, h3, h4]
    decide
  · rw [encode_chunk_length, hB]
    decide
  · obtain ⟨pre, hp⟩ := encode_groups_pad_two (B.take chunkSize) (by rw [h3]; decide)
    refine ⟨pre, encode_chunk (B.drop chunkSize), ?_, ?_⟩
    · unfold base64_encode
      rw [h2, encode_chunk_eq (B.take chunkSize), hp]
      simp
    · rw [encode_chunk_length, h4]

theorem window_fold_drain {β : Type} (threads : Nat) (results : List (List β)) :
    ∀ w : List (List β) × List β,
      (results.foldl (fun w r => window_push threads w.1 w.2 r) w).2 ++
        (results.foldl (fun w r => window_push threads w.1 w.2 r) w).1.flatten =
      w.2 ++ w.1.flatten ++ results.flatten := by
  induction results with
  | nil => intro w; simp
  | cons r rest ih =>
    intro w
    rw [List.foldl_cons, ih, window_push_drain]
    simp

/-! ## Alphabet membership and noise -/

theorem b64_index_eq_neg_one_iff (c : Char) : b64_index c = -1 ↔ c ∉ b64_chars := by
  unfold b64_index
  simp only
  split
  · rename_i h
    exact ⟨fun _ => List.indexOf_eq_length.mp h, fun _ => rfl⟩
  · rename_i h
    constructor
    · intro h2
      have : (0 : Int) ≤ ((List.indexOf c b64_chars : Nat) : Int) := Int.ofNat_nonneg _
      omega
    · intro h2
      exact absurd (List.indexOf_eq_length.mpr h2) h

theorem b64_index_of_mem (c : Char) (h : c ∈ b64_chars) :
    ∃ i : Fin 64, b64_index c = (i.val : Int) ∧ b64_at i.val = c := by
  have hlt : List.indexOf c b64_chars < b64_chars.length := List.indexOf_lt_length.mpr h
  have h64 : List.indexOf c b64_chars < 64 := by rw [b64_chars_length] at hlt; exact hlt
  refine ⟨⟨List.indexOf c b64_chars, h64⟩, ?_, ?_⟩
  · unfold b64_index
    simp only
    rw [if_neg (by omega)]
  · unfold b64_at
    rw [List.getD_eq_getElem _ _ hlt]
    exact List.getElem_indexOf hlt

theorem is_symbol_iff (c : Char) : is_symbol c = true ↔ (c ∈ b64_chars ∨ c = '=') := by
  unfold is_symbol
  rw [Bool.or_eq_true, beq_iff_eq, bne_iff_ne, Ne, b64_index_eq_neg_one_iff, not_not]
  exact or_comm

theorem whitespace_not_symbol (c : Char) (h : c.isWhitespace = true) : is_symbol c = false := by
  unfold Char.isWhitespace at h
  simp only [Bool.or_eq_true, decide_eq_true_eq] at h
  rcases h with ((h | h) | h) | h <;> rw [h] <;> decide

/-- Removing characters that are not symbols does not change what `decode_chunk`
returns. -/
theorem decode_chunk_filter (keep : Char → Bool) (hk : ∀ c, is_symbol c = true → keep c = true)
    (s : List Char) : decode_chunk (s.filter keep) = decode_chunk s := by
  rw [decode_chunk_eq, decode_chunk_eq, List.filter_filter]
  congr 1
  apply List.filter_congr
  intro x _
  cases hx : is_symbol x
  · simp
  · simp [hk x hx]

/-! ## A text with one newline in front -/

theorem decode_group_AAAA : decode_group 'A' 'A' 'A' 'A' = [0, 0, 0] := by decide

theorem decode_groups_replicate_A (k : Nat) :
    ∀ r : Nat, r < 4 →
      decode_groups (List.replicate (4 * k + r) 'A') = List.replicate (3 * k) (0 : Byte) := by
  induction k with
  | zero =>
    intro r hr
    interval_cases r <;> rfl
  | succ k ih =>
    intro r hr
    have e : 4 * (k + 1) + r = (4 * k + r) + 1 + 1 + 1 + 1 := by omega
    have e3 : 3 * (k + 1) = 3 * k + 1 + 1 + 1 := by omega
    rw [e, e3]
    simp only [List.replicate_succ, decode_groups, decode_group_AAAA, ih r hr]
    rfl

theorem is_symbol_A : is_symbol 'A' = true := by decide

theorem is_symbol_newline : is_symbol '\n' = false := by decide

/-- The decode run on a newline followed by `n + 1` letters `A`, read `n + 1`
characters at a time, `n + 1` being a multiple of 4. -/
theorem decode_newline_then_As (n threads : Nat) (h4 : (n + 1) % 4 = 0) :
    (decode_final (n + 1) threads ('\n' :: List.replicate (n + 1) 'A')).dispatched =
      [ '\n' :: List.replicate n 'A', ['A'] ] ∧
    (('\n' :: List.replicate n 'A').filter is_symbol).length = n ∧
    decode_with (n + 1) threads ('\n' :: List.replicate (n + 1) 'A') =
      List.replicate (3 * (n / 4)) (0 : Byte) ∧
    decode_chunk ('\n' :: List.replicate (n + 1) 'A') =
      List.replicate (3 * ((n + 1) / 4)) (0 : Byte) := by
  have hspan : decode_span (n + 1) = n + 1 := by unfold decode_span; omega
  obtain ⟨h1, h2⟩ := decode_with_eq (n + 1) threads (by omega) ('\n' :: List.replicate (n + 1) 'A')
  have h3 := read_chunks_two (n + 1) ('\n' :: List.replicate (n + 1) 'A')
    (by simp) (by simp; omega)
  have ht : List.take (n + 1) ('\n' :: List.replicate (n + 1) 'A') =
      '\n' :: List.replicate n 'A' := by
    rw [List.take_succ_cons, List.take_replicate, Nat.min_eq_left (by omega)]
  have hd : List.drop (n + 1) ('\n' :: List.replicate (n + 1) 'A') = ['A'] := by
    rw [List.drop_succ_cons, List.drop_replicate]
    have : n + 1 - n = 1 := by omega
    rw [this]
    rfl
  have hfilter : ∀ m : Nat, ('\n' :: List.replicate m 'A').filter is_symbol =
      List.replicate m 'A' := by
    intro m
    rw [List.filter_cons_of_neg (by rw [is_symbol_newline]; simp),
      List.filter_replicate_of_pos is_symbol_A]
  have hdec : ∀ m : Nat, decode_chunk ('\n' :: List.replicate m 'A') =
      List.replicate (3 * (m / 4)) (0 : Byte) := by
    intro m
    rw [decode_chunk_eq, hfilter]
    have := decode_groups_replicate_A (m / 4) (m % 4) (Nat.mod_lt _ (by decide))
    rw [Nat.div_add_mod] at this
    exact this
  rw [hspan, h3, ht, hd] at h1 h2
  refine ⟨h1, ?_, ?_, hdec (n + 1)⟩
  · rw [hfilter, List.length_replicate]
  · rw [h2]
    have hA : decode_chunk ['A'] = [] := by decide
    simp only [List.map_cons, List.map_nil, List.flatten_cons, List.flatten_nil, hdec n, hA,
      List.append_nil]

/-! ## Properties of the specification -/

/-- C1. Worker round trip: for every byte buffer `B`, of any length including 0,
decoding with `decode_chunk` the text `encode_chunk` produces for `B` gives `B` back. -/
theorem worker_round_trip (B : List Byte) : decode_chunk (encode_chunk B) = B :=
  decode_chunk_encode_chunk B

/-- C2. Whole-run round trip: for every byte sequence `B` and all worker counts `t1`,
`t2` (in particular all those that are at least 1), running `base64::encode` on `B`
with `t1` workers and read size `chunkSize = 1048576`, then `base64::decode` with `t2`
workers on the text written, writes exactly `B`. -/
theorem whole_run_round_trip (B : List Byte) (t1 t2 : Nat) :
    chunkSize = 1048576 ∧ base64_decode t2 (base64_encode t1 B) = B :=
  ⟨rfl, decode_encode_with chunkSize chunkSize t1 t2 chunkSize_pos chunkSize_pos B⟩

/-- C3 (the code departs from the claim). On a source of 1048577 zero bytes, one byte
more than `chunkSize`, the text `base64::encode` writes is not `encode_chunk` of the
whole source: it is 1398108 characters long where the single-shot text has 1398104,
and it holds the padding `==` followed by four more characters. -/
theorem encode_run_not_single_shot :
    base64_encode 1 (List.replicate 1048577 (0 : Byte)) ≠
      encode_chunk (List.replicate 1048577 (0 : Byte)) ∧
    (base64_encode 1 (List.replicate 1048577 (0 : Byte))).length = 1398108 ∧
    (encode_chunk (List.replicate 1048577 (0 : Byte))).length = 1398104 ∧
    (∃ pre post, base64_encode 1 (List.replicate 1048577 (0 : Byte)) = pre ++ '=' :: '=' :: post ∧
      post.length = 4) := by
  obtain ⟨-, h2, h3, h4⟩ := encode_one_past_chunkSize 1 (List.replicate 1048577 (0 : Byte))
    (List.length_replicate _ _)
  refine ⟨?_, h2, h3, h4⟩
  intro h
  rw [h, h3] at h2
  exact absurd h2 (by decide)

/-- C4 (the code departs from the claim). On a source of 1048577 zero bytes
`base64::encode` hands two chunks to `encode_chunk`; the first, which is not the last
one read, is 1048576 bytes long, and 1048576 (the constant `chunkSize`) leaves
remainder 1 when divided by 3. -/
theorem encode_reader_misaligned :
    (∃ first rest, (encode_final chunkSize 1 (List.replicate 1048577 (0 : Byte))).dispatched =
        first :: rest ∧ rest ≠ [] ∧ first.length = 1048576) ∧
    1048576 % 3 = 1 ∧ chunkSize % 3 = 1 :=
  ⟨(encode_one_past_chunkSize 1 (List.replicate 1048577 (0 : Byte))
    (List.length_replicate _ _)).1, by decide, by decide⟩

/-- C5. Chunk-size invariance: with the read size of the encode run as a parameter, for
every source `B`, all positive read sizes `c1`, `c2` that are multiples of 3 and all
worker counts, the concatenation of `encode_chunk` over the chunks dispatched with
read size `c1` equals the one with read size `c2`, both equal `encode_chunk B`, and so
do the texts the two runs write. -/
theorem chunk_size_invariance (B : List Byte) (c1 c2 t1 t2 : Nat) (h1 : 0 < c1) (h2 : 0 < c2)
    (d1 : 3 ∣ c1) (d2 : 3 ∣ c2) :
    (((encode_final c1 t1 B).dispatched.map encode_chunk).flatten =
      ((encode_final c2 t2 B).dispatched.map encode_chunk).flatten) ∧
    ((encode_final c1 t1 B).dispatched.map encode_chunk).flatten = encode_chunk B ∧
    encode_with c1 t1 B = encode_chunk B ∧ encode_with c2 t2 B = encode_chunk B := by
  obtain ⟨a1, b1⟩ := encode_with_eq c1 t1 h1 B
  obtain ⟨a2, b2⟩ := encode_with_eq c2 t2 h2 B
  have e1 := encode_chunks_aligned c1 h1 (Nat.mod_eq_zero_of_dvd d1) B
  have e2 := encode_chunks_aligned c2 h2 (Nat.mod_eq_zero_of_dvd d2) B
  rw [a1, a2, b1, b2, e1, e2]
  exact ⟨rfl, rfl, rfl, rfl⟩

/-- Witness for C5: read sizes 300 and 3000, worker counts 1 and 8, on a 4-byte source. -/
theorem chunk_size_invariance_witness :
    (((encode_final 300 1 [77, 97, 110, 33]).dispatched.map encode_chunk).flatten =
      ((encode_final 3000 8 [77, 97, 110, 33]).dispatched.map encode_chunk).flatten) ∧
    ((encode_final 300 1 [77, 97, 110, 33]).dispatched.map encode_chunk).flatten =
      encode_chunk [77, 97, 110, 33] ∧
    encode_with 300 1 [77, 97, 110, 33] = encode_chunk [77, 97, 110, 33] ∧
    encode_with 3000 8 [77, 97, 110, 33] = encode_chunk [77, 97, 110, 33] :=
  chunk_size_invariance [77, 97, 110, 33] 300 3000 1 8 (by decide) (by decide) (by decide)
    (by decide)

/-- C6. Ordered drain and worker-count invariance: in the FIFO-list model of the
`futures` vector, for every sequence of task results and every value of `threads`
(0 included) the output is the concatenation of the results in submission order; and
for every source and every `threads` the runs of `base64::encode` and `base64::decode`
write the concatenation of the worker results of the chunks they dispatched, in the
order read, which is the same text for any two worker counts. -/
theorem ordered_drain (threads threads2 : Nat) :
    (∀ results : List (List Char), window_run threads results = results.flatten) ∧
    (∀ results : List (List Byte), window_run threads results = results.flatten) ∧
    (∀ B : List Byte, base64_encode threads B =
      ((encode_final chunkSize threads B).dispatched.map encode_chunk).flatten ∧
      (encode_final chunkSize threads B).dispatched =
        (encode_final chunkSize threads2 B).dispatched ∧
      base64_encode threads B = base64_encode threads2 B) ∧
    (∀ T : List Char, base64_decode threads T =
      ((decode_final chunkSize threads T).dispatched.map decode_chunk).flatten ∧
      (decode_final chunkSize threads T).dispatched =
        (decode_final chunkSize threads2 T).dispatched ∧
      base64_decode threads T = base64_decode threads2 T) := by
  refine ⟨?_, ?_, ?_, ?_⟩
  · intro results
    have := window_fold_drain threads results ([], [])
    simpa [window_run] using this
  · intro results
    have := window_fold_drain threads results ([], [])
    simpa [window_run] using this
  · intro B
    obtain ⟨a1, b1⟩ := encode_with_eq chunkSize threads chunkSize_pos B
    obtain ⟨a2, b2⟩ := encode_with_eq chunkSize threads2 chunkSize_pos B
    unfold base64_encode
    rw [a1, a2, b1, b2]
    exact ⟨rfl, rfl, rfl⟩
  · intro T
    obtain ⟨a1, b1⟩ := decode_with_eq chunkSize threads chunkSize_pos T
    obtain ⟨a2, b2⟩ := decode_with_eq chunkSize threads2 chunkSize_pos T
    unfold base64_decode
    rw [a1, a2, b1, b2]
    exact ⟨rfl, rfl, rfl⟩

/-- C7. Alphabet lookups are exact inverses: `b64_index (b64_chars[i]) = i` for every
`i` in 0..63, the 64 symbols are distinct, for every character `c` the value
`b64_index c` is either `-1` or an index `i` in 0..63 with `b64_chars[i] = c`, and
`b64_index '=' = -1`. -/
theorem alphabet_inverse :
    (∀ i : Fin 64, b64_index (b64_at i.val) = (i.val : Int)) ∧
    b64_chars.length = 64 ∧ b64_chars.Nodup ∧
    (∀ c : Char, b64_index c = -1 ∨
      ∃ i : Fin 64, b64_index c = (i.val : Int) ∧ b64_at i.val = c) ∧
    b64_index '=' = -1 := by
  refine ⟨b64_index_at, b64_chars_length, by decide, ?_, by decide⟩
  intro c
  by_cases h : c ∈ b64_chars
  · exact Or.inr (b64_index_of_mem c h)
  · exact Or.inl ((b64_index_eq_neg_one_iff c).mpr h)

/-- C8. Encode length: for every byte buffer of length `n`, `encode_chunk` returns a
text of exactly `ceil(n/3) * 4` characters (`(n + 2) / 3` in integer division, as on
source line 11). -/
theorem encode_length (B : List Byte) :
    (encode_chunk B).length = ⌈(B.length : ℚ) / 3⌉₊ * 4 ∧
    (encode_chunk B).length = (B.length + 2) / 3 * 4 := by
  have hceil : ⌈(B.length : ℚ) / 3⌉₊ = (B.length + 2) / 3 := by
    apply le_antisymm
    · rw [Nat.ceil_le, div_le_iff₀ (by norm_num)]
      have : B.length ≤ (B.length + 2) / 3 * 3 := by omega
      exact_mod_cast this
    · by_contra hlt
      push_neg at hlt
      have h1 : (B.length : ℚ) / 3 ≤ ⌈(B.length : ℚ) / 3⌉₊ := Nat.le_ceil _
      rw [div_le_iff₀ (by norm_num)] at h1
      have h2 : B.length ≤ ⌈(B.length : ℚ) / 3⌉₊ * 3 := by exact_mod_cast h1
      omega
  rw [hceil]
  exact ⟨encode_chunk_length B, encode_chunk_length B⟩

/-- C9. Decode tolerance: for every text `s`, `decode_chunk s` equals `decode_chunk` of
`s` with every character that is neither one of the 64 alphabet symbols nor `=`
removed, and equals `decode_chunk` of `s` with all whitespace (blanks, tabs, carriage
returns, newlines) removed, wherever those characters stand. -/
theorem decode_tolerance (s : List Char) :
    decode_chunk s = decode_chunk (s.filter (fun c => decide (c ∈ b64_chars ∨ c = '='))) ∧
    decode_chunk s = decode_chunk (s.filter (fun c => !c.isWhitespace)) := by
  constructor
  · exact (decode_chunk_filter _ (fun c hc => by simpa using (is_symbol_iff c).mp hc) s).symm
  · refine (decode_chunk_filter _ (fun c hc => ?_) s).symm
    cases hw : c.isWhitespace
    · rfl
    · rw [whitespace_not_symbol c hw] at hc
      exact absurd hc (by simp)

/-- C10 (the code departs from the claim). On the text made of a newline followed by
1048576 letters `A`, `base64::decode` dispatches two chunks; the first, which is not
the last, is the newline and 1048575 letters, so it holds 1048575 alphabet characters,
3 more than a multiple of 4. Its last three letters are dropped: the run writes
786429 bytes where `decode_chunk` of the whole text gives 786432. -/
theorem decode_reader_splits_group :
    (decode_final chunkSize 1 ('\n' :: List.replicate 1048576 'A')).dispatched =
      [ '\n' :: List.replicate 1048575 'A', ['A'] ] ∧
    (('\n' :: List.replicate 1048575 'A').filter is_symbol).length % 4 = 3 ∧
    base64_decode 1 ('\n' :: List.replicate 1048576 'A') = List.replicate 786429 (0 : Byte) ∧
    decode_chunk ('\n' :: List.replicate 1048576 'A') = List.replicate 786432 (0 : Byte) := by
  obtain ⟨h1, h2, h3, h4⟩ := decode_newline_then_As 1048575 1 (by decide)
  refine ⟨h1, ?_, h3, h4⟩
  rw [h2]

/-! ## Padding, known answers and empty input -/

theorem b64_at_mem : ∀ i : Fin 64, b64_at i.val ∈ b64_chars := by decide

theorem pad_not_in_alphabet : '=' ∉ b64_chars := by decide

theorem encode_groups_padding (B : List Byte) :
    ∃ data : List Char,
      encode_groups B = data ++ List.replicate ((3 - B.length % 3) % 3) '=' ∧
      ∀ x ∈ data, x ∈ b64_chars := by
  induction B using encode_groups.induct with
  | case1 => exact ⟨[], rfl, by simp⟩
  | case2 a =>
    refine ⟨[b64_at (sextet0 a.val), b64_at (sextet1 a.val 0)], rfl, ?_⟩
    intro x hx
    simp only [List.mem_cons, List.mem_singleton, List.not_mem_nil, or_false] at hx
    rcases hx with h | h
    · rw [h]; exact b64_at_mem ⟨_, sextet0_lt a⟩
    · rw [h]; exact b64_at_mem ⟨_, sextet1_lt _ _ (by norm_num)⟩
  | case3 a b =>
    refine ⟨[b64_at (sextet0 a.val), b64_at (sextet1 a.val b.val), b64_at (sextet2 b.val 0)],
      rfl, ?_⟩
    intro x hx
    simp only [List.mem_cons, List.mem_singleton, List.not_mem_nil, or_false] at hx
    rcases hx with h | h | h
    · rw [h]; exact b64_at_mem ⟨_, sextet0_lt a⟩
    · rw [h]; exact b64_at_mem ⟨_, sextet1_lt _ _ b.isLt⟩
    · rw [h]; exact b64_at_mem ⟨_, sextet2_lt _ _ (by norm_num)⟩
  | case4 a b c rest ih =>
    obtain ⟨data, hd, hmem⟩ := ih
    refine ⟨b64_at (sextet0 a.val) :: b64_at (sextet1 a.val b.val) ::
      b64_at (sextet2 b.val c.val) :: b64_at (sextet3 c.val) :: data, ?_, ?_⟩
    · have hl : (a :: b :: c :: rest).length % 3 = rest.length % 3 := by
        simp only [List.length_cons]; omega
      rw [hl]
      simp only [encode_groups, hd, List.cons_append]
    · intro x hx
      simp only [List.mem_cons] at hx
      rcases hx with h | h | h | h | h
      · rw [h]; exact b64_at_mem ⟨_, sextet0_lt a⟩
      · rw [h]; exact b64_at_mem ⟨_, sextet1_lt _ _ b.isLt⟩
      · rw [h]; exact b64_at_mem ⟨_, sextet2_lt _ _ c.isLt⟩
      · rw [h]; exact b64_at_mem ⟨_, sextet3_lt _⟩
      · exact hmem x h

/-- C11. Padding correctness: for every byte buffer of length `n` the text returned by
`encode_chunk` is a run of symbols of the 64-symbol alphabet followed by exactly
`(3 - n mod 3) mod 3` characters `=` (which is not in the alphabet); every 1-byte buffer
gives 2 alphabet symbols then `==`, every 2-byte buffer 3 alphabet symbols then `=`, and
a buffer whose length is a multiple of 3 gives no `=` at all. -/
theorem padding_correctness (B : List Byte) :
    (∃ data : List Char,
      encode_chunk B = data ++ List.replicate ((3 - B.length % 3) % 3) '=' ∧
      ∀ x ∈ data, x ∈ b64_chars) ∧
    '=' ∉ b64_chars ∧
    (∀ a : Byte, ∃ x y : Char, x ∈ b64_chars ∧ y ∈ b64_chars ∧
      encode_chunk [a] = [x, y, '=', '=']) ∧
    (∀ a b : Byte, ∃ x y z : Char, x ∈ b64_chars ∧ y ∈ b64_chars ∧ z ∈ b64_chars ∧
      encode_chunk [a, b] = [x, y, z, '=']) ∧
    (B.length % 3 = 0 → '=' ∉ encode_chunk B) := by
  refine ⟨?_, pad_not_in_alphabet, ?_, ?_, ?_⟩
  · rw [encode_chunk_eq]; exact encode_groups_padding B
  · intro a
    exact ⟨b64_at (sextet0 a.val), b64_at (sextet1 a.val 0), b64_at_mem ⟨_, sextet0_lt a⟩,
      b64_at_mem ⟨_, sextet1_lt a.val 0 (by norm_num)⟩, by rw [encode_chunk_eq]; rfl⟩
  · intro a b
    exact ⟨b64_at (sextet0 a.val), b64_at (sextet1 a.val b.val), b64_at (sextet2 b.val 0),
      b64_at_mem ⟨_, sextet0_lt a⟩, b64_at_mem ⟨_, sextet1_lt _ _ b.isLt⟩,
      b64_at_mem ⟨_, sextet2_lt b.val 0 (by norm_num)⟩, by rw [encode_chunk_eq]; rfl⟩
  · intro h3 hmem
    obtain ⟨data, hd, hdata⟩ := encode_groups_padding B
    rw [encode_chunk_eq, hd, h3] at hmem
    simp only [Nat.sub_zero, Nat.mod_self, List.replicate_zero, List.append_nil] at hmem
    exact pad_not_in_alphabet (hdata _ hmem)

/-- C12. Known-answer scenario: `encode_chunk` of the bytes `0x4D 0x61 0x6E` is the text
`TWFu`, and `decode_chunk` of `TWFu` is `0x4D 0x61 0x6E`. -/
theorem known_answer :
    encode_chunk [0x4D, 0x61, 0x6E] = ['T', 'W', 'F', 'u'] ∧
    decode_chunk ['T', 'W', 'F', 'u'] = [0x4D, 0x61, 0x6E] := by
  constructor
  · rw [encode_chunk_eq]; decide
  · decide

/-- C13. Empty input: `encode_chunk` of the empty buffer is the empty text and
`decode_chunk` of the empty text is the empty buffer; on an empty source
`base64::encode` and `base64::decode` dispatch no chunk, leave no future behind and
write nothing, for every worker count. -/
theorem empty_input (threads : Nat) :
    encode_chunk [] = [] ∧ decode_chunk [] = [] ∧
    (encode_final chunkSize threads []).dispatched = [] ∧
    (encode_final chunkSize threads []).futures = [] ∧
    base64_encode threads [] = [] ∧
    (decode_final chunkSize threads []).dispatched = [] ∧
    (decode_final chunkSize threads []).futures = [] ∧
    base64_decode threads [] = [] := by
  have he : encode_iter chunkSize threads (run_init []) = none := rfl
  have hd : decode_iter chunkSize threads (run_init []) = none := rfl
  have hef : encode_final chunkSize threads [] = run_init [] :=
    encode_while_none chunkSize threads _ he
  have hdf : decode_final chunkSize threads [] = run_init [] :=
    decode_while_none chunkSize threads _ hd
  refine ⟨by rw [encode_chunk_eq]; rfl, rfl, ?_, ?_, ?_, ?_, ?_, ?_⟩
  · rw [hef]; rfl
  · rw [hef]; rfl
  · unfold base64_encode encode_with; rw [hef]; rfl
  · rw [hdf]; rfl
  · rw [hdf]; rfl
  · unfold base64_decode decode_with; rw [hdf]; rfl

/-! ## Raw alignment of the decode reader -/

theorem read_chunks_nil {α : Type} (n : Nat) : read_chunks n ([] : List α) = [] :=
  read_chunks_stop n [] (Or.inr rfl)

/-- Every piece but the last has exactly `n` elements. -/
theorem read_chunks_dropLast {α : Type} (n : Nat) (hn : 0 < n) (src : List α) :
    ∀ ch ∈ (read_chunks n src).dropLast, ch.length = n := by
  induction src using read_chunks.induct n with
  | case1 src h =>
    rcases h with h | h
    · omega
    · have h0 := List.length_eq_zero.mp h
      rw [read_chunks_stop n src (Or.inr h0)]
      simp
  | case2 src h ih =>
    have hs : src ≠ [] := fun e => h (Or.inr (by rw [e]; rfl))
    rw [read_chunks_step n src hn hs]
    intro ch hch
    cases hL : read_chunks n (List.drop n src) with
    | nil => rw [hL] at hch; simp at hch
    | cons b L =>
      rw [hL, List.dropLast_cons₂, List.mem_cons] at hch
      rcases hch with h1 | h1
      · rw [h1, List.length_take]
        have hd : List.drop n src ≠ [] := by
          intro e
          rw [e, read_chunks_nil] at hL
          exact absurd hL (by simp)
        have := List.length_pos.mpr hd
        rw [List.length_drop] at this
        omega
      · rw [hL] at ih
        exact ih ch h1

theorem extend_loop_stops (buf : List Char) (s : IStream Char) (hs : StreamOK s) :
    (extend_loop buf s).1.length % 4 = 0 ∨ (extend_loop buf s).2.rest = [] := by
  obtain ⟨e1, e2, -⟩ := extend_loop_spec buf s hs
  by_cases hle : (4 - buf.length % 4) % 4 ≤ s.rest.length
  · left
    rw [e1, List.length_append, List.length_take, Nat.min_eq_left hle]
    omega
  · right
    rw [e2]
    exact List.drop_eq_nil_of_le (by omega)

/-! ## One group of the decoder -/

theorem symbol_count_eq (s : List Char) : symbol_count s = (s.filter is_symbol).length := by
  unfold symbol_count
  rw [List.countP_eq_length_filter]
  congr 1
  apply List.filter_congr
  intro x _
  cases hx : is_symbol x
  · have := (is_symbol_iff x).not.mp (by rw [hx]; simp)
    simpa using this
  · have := (is_symbol_iff x).mp hx
    simpa using this

theorem symbol_value_of_symbol (c : Char) (h : is_symbol c = true) :
    ∃ v : Nat, v < 64 ∧ symbol_value c = (v : Int) := by
  by_cases hp : c = '='
  · exact ⟨0, by decide, by rw [hp]; exact symbol_value_pad⟩
  · rcases (is_symbol_iff c).mp h with hm | hm
    · obtain ⟨i, hi, -⟩ := b64_index_of_mem c hm
      exact ⟨i.val, i.isLt, by unfold symbol_value; rw [if_neg hp, hi]⟩
    · exact absurd hm hp

theorem toUChar_val (n : Nat) (h : n < 256) : (toUChar (n : Int)).val = n := by
  rw [toUChar_coe n h]

theorem octet0_lt (v0 v1 : Nat) (h0 : v0 < 64) (h1 : v1 < 64) :
    (v0 <<< 2) ||| ((v1 &&& 0x30) >>> 4) < 256 := by
  rw [octet0_eq _ _ h1]; omega

theorem octet1_lt (v1 v2 : Nat) (h2 : v2 < 64) :
    ((v1 &&& 0xf) <<< 4) ||| ((v2 &&& 0x3c) >>> 2) < 256 := by
  rw [octet1_eq _ _ h2]; omega

theorem octet2_lt (v2 v3 : Nat) (h3 : v3 < 64) :
    ((v2 &&& 0x3) <<< 6) ||| v3 < 256 := by
  rw [octet2_eq _ _ h3]; omega

theorem int_rule0 (v0 v1 : Nat) (h1 : v1 < 64) :
    Int.lor ((v0 : Int) <<< (2 : Int)) ((v1 : Int) >>> (4 : Int)) =
      (((v0 <<< 2) ||| ((v1 &&& 0x30) >>> 4) : Nat) : Int) := by
  have e1 : (v0 : Int) <<< (2 : Int) = ((v0 <<< 2 : Nat) : Int) := Int.shiftLeft_coe_nat v0 2
  have e2 : (v1 : Int) >>> (4 : Int) = ((v1 >>> 4 : Nat) : Int) := Int.shiftRight_coe_nat v1 4
  have e3 : (v1 &&& 0x30) >>> 4 = v1 >>> 4 := by
    rw [mask30 ⟨v1, h1⟩, Nat.shiftRight_eq_div_pow]
  rw [e1, e2, e3]
  rfl

theorem int_rule1 (v1 v2 : Nat) (h2 : v2 < 64) :
    Int.lor (Int.land (v1 : Int) 15 <<< (4 : Int)) ((v2 : Int) >>> (2 : Int)) =
      ((((v1 &&& 0xf) <<< 4) ||| ((v2 &&& 0x3c) >>> 2) : Nat) : Int) := by
  have e0 : Int.land (v1 : Int) 15 = ((v1 &&& 0xf : Nat) : Int) := rfl
  have e1 : ((v1 &&& 0xf : Nat) : Int) <<< (4 : Int) = (((v1 &&& 0xf) <<< 4 : Nat) : Int) :=
    Int.shiftLeft_coe_nat _ 4
  have e2 : (v2 : Int) >>> (2 : Int) = ((v2 >>> 2 : Nat) : Int) := Int.shiftRight_coe_nat v2 2
  have e3 : (v2 &&& 0x3c) >>> 2 = v2 >>> 2 := by
    rw [mask3c ⟨v2, h2⟩, Nat.shiftRight_eq_div_pow]
  rw [e0, e1, e2, e3]
  rfl

theorem int_rule2 (v2 v3 : Nat) :
    Int.lor (Int.land (v2 : Int) 3 <<< (6 : Int)) (v3 : Int) =
      ((((v2 &&& 0x3) <<< 6) ||| v3 : Nat) : Int) := by
  have e0 : Int.land (v2 : Int) 3 = ((v2 &&& 0x3 : Nat) : Int) := rfl
  have e1 : ((v2 &&& 0x3 : Nat) : Int) <<< (6 : Int) = (((v2 &&& 0x3) <<< 6 : Nat) : Int) :=
    Int.shiftLeft_coe_nat _ 6
  rw [e0, e1]
  rfl

theorem decode_chunk_four (s0 s1 s2 s3 : Char) (h0 : is_symbol s0 = true)
    (h1 : is_symbol s1 = true) (h2 : is_symbol s2 = true) (h3 : is_symbol s3 = true) :
    decode_chunk [s0, s1, s2, s3] = decode_group s0 s1 s2 s3 := by
  rw [decode_chunk_eq]
  have hf : List.filter is_symbol [s0, s1, s2, s3] = [s0, s1, s2, s3] := by
    apply List.filter_eq_self.mpr
    intro x hx
    simp only [List.mem_cons, List.mem_singleton, List.not_mem_nil, or_false] at hx
    rcases hx with h | h | h | h <;> rw [h] <;> assumption
  rw [hf]
  simp [decode_groups]

theorem decode_four_as_int (s0 s1 s2 s3 : Char) (h0 : is_symbol s0 = true)
    (h1 : is_symbol s1 = true) (h2 : is_symbol s2 = true) (h3 : is_symbol s3 = true) :
    (decode_chunk [s0, s1, s2, s3]).map (fun b => (b.val : Int)) =
      [Int.lor (symbol_value s0 <<< (2 : Int)) (symbol_value s1 >>> (4 : Int))] ++
      (if s2 ≠ '=' then
        [Int.lor (Int.land (symbol_value s1) 15 <<< (4 : Int)) (symbol_value s2 >>> (2 : Int))]
        else []) ++
      (if s3 ≠ '=' then [Int.lor (Int.land (symbol_value s2) 3 <<< (6 : Int)) (symbol_value s3)]
        else []) := by
  obtain ⟨v0, b0, e0⟩ := symbol_value_of_symbol s0 h0
  obtain ⟨v1, b1, e1⟩ := symbol_value_of_symbol s1 h1
  obtain ⟨v2, b2, e2⟩ := symbol_value_of_symbol s2 h2
  obtain ⟨v3, b3, e3⟩ := symbol_value_of_symbol s3 h3
  rw [decode_chunk_four s0 s1 s2 s3 h0 h1 h2 h3,
    decode_group_values s0 s1 s2 s3 v0 v1 v2 v3 e0 e1 e2 e3, e0, e1, e2, e3,
    int_rule0 v0 v1 b1, int_rule1 v1 v2 b2, int_rule2 v2 v3]
  have t0 := toUChar_val _ (octet0_lt v0 v1 b0 b1)
  have t1 := toUChar_val _ (octet1_lt v1 v2 b2)
  have t2 := toUChar_val _ (octet2_lt v2 v3 b3)
  by_cases p2 : s2 = '=' <;> by_cases p3 : s3 = '=' <;> simp [p2, p3, t0, t1, t2]

/-! ## The checked workers never fail -/

theorem b64_at_checked_lt (i : Nat) (h : i < 64) : b64_at_checked i = some (b64_at i) := by
  unfold b64_at_checked b64_at
  have hl : i < b64_chars.length := by rw [b64_chars_length]; exact h
  rw [List.getD_eq_getElem _ _ hl, List.getElem?_eq_getElem hl]

theorem encode_loop_checked_eq (data : List Byte) (i : Nat) (out : List Char) :
    encode_loop_checked data i out = some (encode_loop data i out) := by
  induction i, out using encode_loop.induct data with
  | case1 i out h a b c out1 out2 out3 out4 ih =>
    have hb : b < 256 := by
      show (if h1 : i + 1 < data.length then (data[i + 1]).val else 0) < 256
      split
      · exact (data[i + 1]).isLt
      · norm_num
    have hc : c < 256 := by
      show (if h2 : i + 2 < data.length then (data[i + 2]).val else 0) < 256
      split
      · exact (data[i + 2]).isLt
      · norm_num
    have k0 : a >>> 2 < 64 := sextet0_lt data[i]
    have k1 : ((a &&& 0x03) <<< 4) ||| (b >>> 4) < 64 := sextet1_lt a b hb
    have k2 : ((b &&& 0x0F) <<< 2) ||| (c >>> 6) < 64 := sextet2_lt b c hc
    have k3 : c &&& 0x3F < 64 := sextet3_lt c
    have e2 : (if i + 1 < data.length then b64_at_checked (((b &&& 0x0F) <<< 2) ||| (c >>> 6))
        else some '=') =
        some (if i + 1 < data.length then b64_at (((b &&& 0x0F) <<< 2) ||| (c >>> 6)) else '=') := by
      split
      · exact b64_at_checked_lt _ k2
      · rfl
    have e3 : (if i + 2 < data.length then b64_at_checked (c &&& 0x3F) else some '=') =
        some (if i + 2 < data.length then b64_at (c &&& 0x3F) else '=') := by
      split
      · exact b64_at_checked_lt _ k3
      · rfl
    have hr : encode_loop data i out = encode_loop data (i + 3) out4 := by
      rw [encode_loop, dif_pos h]
      rfl
    rw [hr, encode_loop_checked, dif_pos h]
    show (b64_at_checked (a >>> 2)).bind (fun c0 =>
      (b64_at_checked (((a &&& 0x03) <<< 4) ||| (b >>> 4))).bind fun c1 =>
      (if i + 1 < data.length then b64_at_checked (((b &&& 0x0F) <<< 2) ||| (c >>> 6))
        else some '=').bind fun c2 =>
      (if i + 2 < data.length then b64_at_checked (c &&& 0x3F) else some '=').bind fun c3 =>
      encode_loop_checked data (i + 3) (out ++ [c0] ++ [c1] ++ [c2] ++ [c3])) =
      some (encode_loop data (i + 3) out4)
    rw [b64_at_checked_lt _ k0, b64_at_checked_lt _ k1, e2, e3]
    exact ih
  | case2 i out h =>
    rw [encode_loop_checked, dif_neg h, encode_loop, dif_neg h]

theorem toUChar_checked_coe (n : Nat) (h : n < 256) :
    toUChar_checked (n : Int) = some (toUChar (n : Int)) := by
  unfold toUChar_checked
  rw [if_pos (by omega)]

theorem vals_eq (c : Char) : (if c = '=' then (0 : Int) else b64_index c) = symbol_value c := rfl

theorem decode_step_checked_eq (st : DecodeState) (c : Char) (hinv : DecodeInv st) :
    decode_step_checked st c = some (decode_step st c) ∧ DecodeInv (decode_step st c) := by
  obtain ⟨out, a4, i⟩ := st
  obtain ⟨h4, hi, hsym⟩ := hinv
  simp only at h4 hi hsym
  by_cases hc : is_symbol c = true
  · match a4, h4 with
    | [x0, x1, x2, x3], _ =>
      interval_cases i
      · refine ⟨by simp [decode_step_checked, decode_step, hc], ?_⟩
        refine ⟨by simp [decode_step, hc], by simp [decode_step, hc], ?_⟩
        intro k hk
        simp only [decode_step, hc, if_true] at hk ⊢
        simp only [Nat.zero_add, Nat.reduceEqDiff, if_false] at hk ⊢
        interval_cases k
        simpa using hc
      · have s0 := hsym 0 (by norm_num)
        refine ⟨by simp [decode_step_checked, decode_step, hc], ?_⟩
        refine ⟨by simp [decode_step, hc], by simp [decode_step, hc], ?_⟩
        intro k hk
        simp only [decode_step, hc, if_true] at hk ⊢
        simp only [Nat.reduceAdd, Nat.reduceEqDiff, if_false] at hk ⊢
        interval_cases k
        · simpa using s0
        · simpa using hc
      · have s0 := hsym 0 (by norm_num)
        have s1 := hsym 1 (by norm_num)
        refine ⟨by simp [decode_step_checked, decode_step, hc], ?_⟩
        refine ⟨by simp [decode_step, hc], by simp [decode_step, hc], ?_⟩
        intro k hk
        simp only [decode_step, hc, if_true] at hk ⊢
        simp only [Nat.reduceAdd, Nat.reduceEqDiff, if_false] at hk ⊢
        interval_cases k
        · simpa using s0
        · simpa using s1
        · simpa using hc
      · have s0 : is_symbol x0 = true := by simpa using hsym 0 (by norm_num)
        have s1 : is_symbol x1 = true := by simpa using hsym 1 (by norm_num)
        have s2 : is_symbol x2 = true := by simpa using hsym 2 (by norm_num)
        obtain ⟨v0, b0, e0⟩ := symbol_value_of_symbol x0 s0
        obtain ⟨v1, b1, e1⟩ := symbol_value_of_symbol x1 s1
        obtain ⟨v2, b2, e2⟩ := symbol_value_of_symbol x2 s2
        obtain ⟨v3, b3, e3⟩ := symbol_value_of_symbol c hc
        constructor
        · simp only [decode_step_checked, decode_step, hc, if_true]
          simp only [Nat.lt_irrefl, Nat.reduceLT, Nat.reduceAdd, if_true, List.set,
            List.getD_cons_zero, List.getD_cons_succ, vals_eq, e0, e1, e2, e3]
          have hall : ∀ k < 4, 0 ≤ symbol_value ([x0, x1, x2, c].getD k '\x00') ∧
              symbol_value ([x0, x1, x2, c].getD k '\x00') ≤ 63 := by
            intro k hk
            interval_cases k
            · simp only [List.getD_cons_zero, e0]; omega
            · simp only [List.getD_cons_zero, List.getD_cons_succ, e1]; omega
            · simp only [List.getD_cons_zero, List.getD_cons_succ, e2]; omega
            · simp only [List.getD_cons_zero, List.getD_cons_succ, e3]; omega
          have i0 : Int.lor ((v0 : Int) <<< (2 : Int)) (Int.land (v1 : Int) 48 >>> (4 : Int)) =
              (((v0 <<< 2) ||| ((v1 &&& 0x30) >>> 4) : Nat) : Int) := rfl
          have i1 : Int.lor (Int.land (v1 : Int) 15 <<< (4 : Int))
              (Int.land (v2 : Int) 60 >>> (2 : Int)) =
              ((((v1 &&& 0xf) <<< 4) ||| ((v2 &&& 0x3c) >>> 2) : Nat) : Int) := rfl
          have i2 : Int.lor (Int.land (v2 : Int) 3 <<< (6 : Int)) (v3 : Int) =
              ((((v2 &&& 0x3) <<< 6) ||| v3 : Nat) : Int) := rfl
          rw [if_pos hall, i0, i1, i2, toUChar_checked_coe _ (octet0_lt v0 v1 b0 b1),
            toUChar_checked_coe _ (octet1_lt v1 v2 b2), toUChar_checked_coe _ (octet2_lt v2 v3 b3)]
          rfl
        · refine ⟨by simp [decode_step, hc], by simp [decode_step, hc], ?_⟩
          intro k hk
          simp [decode_step, hc] at hk
  · have hst : decode_step ⟨out, a4, i⟩ c = ⟨out, a4, i⟩ := by simp [decode_step, hc]
    have hst2 : decode_step_checked ⟨out, a4, i⟩ c = some ⟨out, a4, i⟩ := by
      simp [decode_step_checked, hc]
    rw [hst, hst2]
    exact ⟨rfl, h4, hi, hsym⟩

theorem decodeInv_init : DecodeInv decode_init :=
  ⟨rfl, by decide, by intro k hk; exact absurd hk (Nat.not_lt_zero k)⟩

theorem decode_fold_checked_eq (input : List Char) :
    ∀ st : DecodeState, DecodeInv st →
      decode_fold_checked input st = some (input.foldl decode_step st) := by
  induction input with
  | nil => intro st _; rfl
  | cons c rest ih =>
    intro st hinv
    obtain ⟨h1, h2⟩ := decode_step_checked_eq st c hinv
    rw [decode_fold_checked, h1, Option.some_bind, List.foldl_cons]
    exact ih _ h2

theorem decode_chunk_checked_eq (input : List Char) :
    decode_chunk_checked input = some (decode_chunk input) := by
  unfold decode_chunk_checked decode_chunk
  rw [decode_fold_checked_eq input decode_init decodeInv_init]
  rfl

/-! ## The window never overflows -/

theorem window_push_length {β : Type} (threads : Nat) (futures : List (List β)) (sink r : List β)
    (h : futures.length < threads) :
    (futures ++ [r]).length ≤ threads ∧ (window_push threads futures sink r).1.length < threads := by
  constructor
  · simp only [List.length_append, List.length_singleton]; omega
  · unfold window_push
    simp only
    split
    · simp only [List.length_tail, List.length_append, List.length_singleton]
      omega
    · rename_i hlt
      simp only [List.length_append, List.length_singleton] at hlt ⊢
      omega

theorem encode_iter_futures (c threads : Nat) (st st2 : RunState Byte Char)
    (h : encode_iter c threads st = some st2) :
    ∃ r, st2.futures = (window_push threads st.futures st.sink r).1 := by
  unfold encode_iter at h
  simp only at h
  split at h
  · exact absurd h (by simp)
  · exact ⟨_, by rw [← Option.some.inj h]⟩

theorem decode_iter_futures (c threads : Nat) (st st2 : RunState Char Byte)
    (h : decode_iter c threads st = some st2) :
    ∃ r, st2.futures = (window_push threads st.futures st.sink r).1 := by
  unfold decode_iter at h
  simp only at h
  split at h
  · exact absurd h (by simp)
  · exact ⟨_, by rw [← Option.some.inj h]⟩

/-- A bound on the window that one pass of a loop body keeps is kept by any number of
passes. -/
theorem run_steps_invariant {σ : Type} (step : σ → Option σ) (P : σ → Prop)
    (hstep : ∀ s s2, step s = some s2 → P s → P s2) (k : Nat) :
    ∀ s s2, run_steps step k s = some s2 → P s → P s2 := by
  induction k with
  | zero =>
    intro s s2 h hp
    simp only [run_steps, Option.some.injEq] at h
    rw [← h]; exact hp
  | succ k ih =>
    intro s s2 h hp
    simp only [run_steps] at h
    split at h
    · exact absurd h (by simp)
    · rename_i s1 h1
      exact ih s1 s2 h (hstep s s1 h1 hp)

theorem encode_while_reached (c threads : Nat) (st : RunState Byte Char) :
    ∃ k, run_steps (encode_iter c threads) k st = some (encode_while c threads st) ∧
      encode_iter c threads (encode_while c threads st) = none := by
  induction st using encode_while.induct c threads with
  | case1 st h =>
    rw [encode_while_none c threads st h]
    exact ⟨0, rfl, h⟩
  | case2 st st2 h ih =>
    obtain ⟨k, hk, hn⟩ := ih
    rw [encode_while_some c threads st st2 h]
    exact ⟨k + 1, by simp only [run_steps, h]; exact hk, hn⟩

theorem decode_while_reached (c threads : Nat) (st : RunState Char Byte) :
    ∃ k, run_steps (decode_iter c threads) k st = some (decode_while c threads st) ∧
      decode_iter c threads (decode_while c threads st) = none := by
  induction st using decode_while.induct c threads with
  | case1 st h =>
    rw [decode_while_none c threads st h]
    exact ⟨0, rfl, h⟩
  | case2 st st2 h ih =>
    obtain ⟨k, hk, hn⟩ := ih
    rw [decode_while_some c threads st st2 h]
    exact ⟨k + 1, by simp only [run_steps, h]; exact hk, hn⟩


theorem window_push_full {β : Type} (threads : Nat) (futures : List (List β)) (sink r : List β)
    (h : threads ≤ (futures ++ [r]).length) :
    window_push threads futures sink r =
      ((futures ++ [r]).tail, sink ++ (futures ++ [r]).headD []) := by
  unfold window_push
  simp only
  rw [if_pos h]

theorem decode_groups_short (l : List Char) (h : l.length ≤ 3) : decode_groups l = [] := by
  match l, h with
  | [], _ => rfl
  | [_], _ => rfl
  | [_, _], _ => rfl
  | [_, _, _], _ => rfl
  | _ :: _ :: _ :: _ :: _, h => simp at h

theorem decode_chunk_short (t : List Char) (h : symbol_count t ≤ 3) : decode_chunk t = [] := by
  rw [symbol_count_eq] at h
  rw [decode_chunk_eq, decode_groups_short _ h]

theorem decode_chunks_flatten (chunks : List (List Char))
    (h : ∀ ch ∈ chunks, symbol_count ch % 4 = 0) :
    (chunks.map decode_chunk).flatten = decode_chunk chunks.flatten := by
  induction chunks with
  | nil => rfl
  | cons ch rest ih =>
    have h1 : ((ch.filter is_symbol).length) % 4 = 0 := by
      rw [← symbol_count_eq]; exact h ch (List.mem_cons_self _ _)
    rw [List.map_cons, List.flatten_cons, List.flatten_cons, decode_chunk_append _ _ h1,
      ih (fun x hx => h x (List.mem_cons_of_mem _ hx))]

theorem decode_fold_inv (input : List Char) :
    ∀ st : DecodeState, DecodeInv st → DecodeInv (input.foldl decode_step st) := by
  induction input with
  | nil => intro st h; exact h
  | cons c rest ih =>
    intro st h
    rw [List.foldl_cons]
    exact ih _ (decode_step_checked_eq st c h).2

/-! ## Properties of the specification, continued -/

/-- C14. Window bound: in the FIFO-list model of the `futures` vector, for every worker
count `threads >= 1`, every source and every number `k` of passes through the loop of
`base64::encode` (and of `base64::decode`), the window holds fewer than `threads`
futures when the next task is started, at most `threads` once it is pushed, and fewer
than `threads` again after the test of line 42 (line 114), the front future being
written and erased when the window is full; the state at the end of the loop is one of
these states. The read size `c` is a parameter (the code uses `chunkSize`). -/
theorem window_bound (c threads : Nat) (h : 1 ≤ threads) :
    (∀ (src : List Byte) (k : Nat) (st : RunState Byte Char),
      run_steps (encode_iter c threads) k (run_init src) = some st →
        st.futures.length < threads ∧
        ∀ r : List Char, (st.futures ++ [r]).length ≤ threads ∧
          (window_push threads st.futures st.sink r).1.length < threads ∧
          (threads ≤ (st.futures ++ [r]).length →
            window_push threads st.futures st.sink r =
              ((st.futures ++ [r]).tail, st.sink ++ (st.futures ++ [r]).headD []))) ∧
    (∀ src : List Byte, ∃ k,
      run_steps (encode_iter c threads) k (run_init src) = some (encode_final c threads src) ∧
      encode_iter c threads (encode_final c threads src) = none) ∧
    (∀ (src : List Char) (k : Nat) (st : RunState Char Byte),
      run_steps (decode_iter c threads) k (run_init src) = some st →
        st.futures.length < threads ∧
        ∀ r : List Byte, (st.futures ++ [r]).length ≤ threads ∧
          (window_push threads st.futures st.sink r).1.length < threads ∧
          (threads ≤ (st.futures ++ [r]).length →
            window_push threads st.futures st.sink r =
              ((st.futures ++ [r]).tail, st.sink ++ (st.futures ++ [r]).headD []))) ∧
    (∀ src : List Char, ∃ k,
      run_steps (decode_iter c threads) k (run_init src) = some (decode_final c threads src) ∧
      decode_iter c threads (decode_final c threads src) = none) := by
  refine ⟨?_, fun src => encode_while_reached c threads (run_init src), ?_,
    fun src => decode_while_reached c threads (run_init src)⟩
  · intro src k st hk
    have hlt : st.futures.length < threads :=
      run_steps_invariant (encode_iter c threads) (fun s => s.futures.length < threads)
        (fun s s2 hs hp => by
          obtain ⟨r, hr⟩ := encode_iter_futures c threads s s2 hs
          rw [hr]
          exact (window_push_length threads s.futures s.sink r hp).2)
        k (run_init src) st hk (by simp only [run_init, List.length_nil]; omega)
    exact ⟨hlt, fun r => ⟨(window_push_length threads st.futures st.sink r hlt).1,
      (window_push_length threads st.futures st.sink r hlt).2,
      window_push_full threads st.futures st.sink r⟩⟩
  · intro src k st hk
    have hlt : st.futures.length < threads :=
      run_steps_invariant (decode_iter c threads) (fun s => s.futures.length < threads)
        (fun s s2 hs hp => by
          obtain ⟨r, hr⟩ := decode_iter_futures c threads s s2 hs
          rw [hr]
          exact (window_push_length threads s.futures s.sink r hp).2)
        k (run_init src) st hk (by simp only [run_init, List.length_nil]; omega)
    exact ⟨hlt, fun r => ⟨(window_push_length threads st.futures st.sink r hlt).1,
      (window_push_length threads st.futures st.sink r hlt).2,
      window_push_full threads st.futures st.sink r⟩⟩



/-- Witness for C14: two workers, read size `chunkSize`. -/
theorem window_bound_witness :
    1 ≤ 2 ∧
    ((∀ (src : List Byte) (k : Nat) (st : RunState Byte Char),
      run_steps (encode_iter chunkSize 2) k (run_init src) = some st →
        st.futures.length < 2 ∧
        ∀ r : List Char, (st.futures ++ [r]).length ≤ 2 ∧
          (window_push 2 st.futures st.sink r).1.length < 2 ∧
          (2 ≤ (st.futures ++ [r]).length →
            window_push 2 st.futures st.sink r =
              ((st.futures ++ [r]).tail, st.sink ++ (st.futures ++ [r]).headD []))) ∧
    (∀ src : List Byte, ∃ k,
      run_steps (encode_iter chunkSize 2) k (run_init src) = some (encode_final chunkSize 2 src) ∧
      encode_iter chunkSize 2 (encode_final chunkSize 2 src) = none) ∧
    (∀ (src : List Char) (k : Nat) (st : RunState Char Byte),
      run_steps (decode_iter chunkSize 2) k (run_init src) = some st →
        st.futures.length < 2 ∧
        ∀ r : List Byte, (st.futures ++ [r]).length ≤ 2 ∧
          (window_push 2 st.futures st.sink r).1.length < 2 ∧
          (2 ≤ (st.futures ++ [r]).length →
            window_push 2 st.futures st.sink r =
              ((st.futures ++ [r]).tail, st.sink ++ (st.futures ++ [r]).headD []))) ∧
    (∀ src : List Char, ∃ k,
      run_steps (decode_iter chunkSize 2) k (run_init src) = some (decode_final chunkSize 2 src) ∧
      decode_iter chunkSize 2 (decode_final chunkSize 2 src) = none)) :=
  ⟨by decide, window_bound chunkSize 2 (by decide)⟩

/-- C15. Decode reader raw alignment: with the source a finite character sequence and
the read size `c` a positive parameter (the code uses 1048576), every chunk that
`base64::decode` dispatches, except possibly the last one, has a raw length (every
character counted, noise included) that is a multiple of 4; the chunks are the
successive pieces of the source; and the inner loop of the reader stops extending a
buffer only when its length is a multiple of 4 or nothing is left in the stream. -/
theorem decode_reader_raw_alignment (c threads : Nat) (src : List Char) (hc : 0 < c) :
    (∀ ch ∈ (decode_final c threads src).dispatched.dropLast, ch.length % 4 = 0) ∧
    (decode_final c threads src).dispatched.flatten = src ∧
    (∀ (buf : List Char) (s : IStream Char), StreamOK s →
      (extend_loop buf s).1.length % 4 = 0 ∨ (extend_loop buf s).2.rest = []) ∧
    chunkSize = 1048576 := by
  have hspan : 0 < decode_span c := lt_of_lt_of_le hc (decode_span_ge c)
  obtain ⟨h1, -⟩ := decode_with_eq c threads hc src
  refine ⟨?_, ?_, extend_loop_stops, rfl⟩
  · intro ch hch
    rw [h1] at hch
    rw [read_chunks_dropLast _ hspan src ch hch]
    exact decode_span_mod c
  · rw [h1, read_chunks_flatten _ hspan]

/-- Witness for C15: read size 5 on a 10-character text with two newlines. -/
theorem decode_reader_raw_alignment_witness :
    0 < 5 ∧
    ((∀ ch ∈ (decode_final 5 1 ['T', 'W', '\n', 'F', 'u', 'T', 'Q', '=', '=', '\n']).dispatched.dropLast,
        ch.length % 4 = 0) ∧
    (decode_final 5 1 ['T', 'W', '\n', 'F', 'u', 'T', 'Q', '=', '=', '\n']).dispatched.flatten =
      ['T', 'W', '\n', 'F', 'u', 'T', 'Q', '=', '=', '\n'] ∧
    (∀ (buf : List Char) (s : IStream Char), StreamOK s →
      (extend_loop buf s).1.length % 4 = 0 ∨ (extend_loop buf s).2.rest = []) ∧
    chunkSize = 1048576) :=
  ⟨by decide, decode_reader_raw_alignment 5 1 _ (by decide)⟩
/-- C16. Decode group rule: for a text of exactly 4 characters `s0 s1 s2 s3`, each an
alphabet symbol or `=`, with `v_k = 0` when `s_k` is `=` and `v_k = b64_index s_k`
otherwise (this is `symbol_value`), `decode_chunk` returns the byte
`(v0 << 2) | (v1 >> 4)`, then the byte `((v1 & 15) << 4) | (v2 >> 2)` exactly when `s2`
is not `=`, then the byte `((v2 & 3) << 6) | v3` exactly when `s3` is not `=`, whether
or not the second byte was emitted. The bytes are compared as integers. -/
theorem decode_group_rule (s0 s1 s2 s3 : Char) (h0 : s0 ∈ b64_chars ∨ s0 = '=')
    (h1 : s1 ∈ b64_chars ∨ s1 = '=') (h2 : s2 ∈ b64_chars ∨ s2 = '=')
    (h3 : s3 ∈ b64_chars ∨ s3 = '=') :
    (decode_chunk [s0, s1, s2, s3]).map (fun b => (b.val : Int)) =
      [Int.lor (symbol_value s0 <<< (2 : Int)) (symbol_value s1 >>> (4 : Int))] ++
      (if s2 ≠ '=' then
        [Int.lor (Int.land (symbol_value s1) 15 <<< (4 : Int)) (symbol_value s2 >>> (2 : Int))]
        else []) ++
      (if s3 ≠ '=' then [Int.lor (Int.land (symbol_value s2) 3 <<< (6 : Int)) (symbol_value s3)]
        else []) :=
  decode_four_as_int s0 s1 s2 s3 ((is_symbol_iff s0).mpr h0) ((is_symbol_iff s1).mpr h1)
    ((is_symbol_iff s2).mpr h2) ((is_symbol_iff s3).mpr h3)

/-- Witness for C16: the group `TQ==`, whose third and fourth characters are padding. -/
theorem decode_group_rule_witness :
    ('T' ∈ b64_chars ∨ 'T' = '=') ∧ ('Q' ∈ b64_chars ∨ 'Q' = '=') ∧
    ('=' ∈ b64_chars ∨ '=' = '=') ∧
    (decode_chunk ['T', 'Q', '=', '=']).map (fun b => (b.val : Int)) =
      [Int.lor (symbol_value 'T' <<< (2 : Int)) (symbol_value 'Q' >>> (4 : Int))] ++
      (if '=' ≠ '=' then
        [Int.lor (Int.land (symbol_value 'Q') 15 <<< (4 : Int))
          (symbol_value '=' >>> (2 : Int))]
        else []) ++
      (if '=' ≠ '=' then
        [Int.lor (Int.land (symbol_value '=') 3 <<< (6 : Int)) (symbol_value '=')]
        else []) :=
  ⟨by decide, by decide, by decide,
    decode_group_rule 'T' 'Q' '=' '=' (by decide) (by decide) (by decide) (by decide)⟩

/-- C17. Trailing partial group is dropped: for every text `s` whose number of
alphabet-or-padding characters is a multiple of 4 and every text `t` with at most 3
such characters, `decode_chunk (s ++ t) = decode_chunk s`; a text with fewer than 4
such characters decodes to the empty buffer; and on every input text `decode_chunk`
returns a result, no check of the checked worker failing. -/
theorem trailing_group_dropped (s t : List Char) (hs : symbol_count s % 4 = 0)
    (ht : symbol_count t ≤ 3) :
    decode_chunk (s ++ t) = decode_chunk s ∧ decode_chunk t = [] ∧
    (∀ input : List Char, decode_chunk_checked input = some (decode_chunk input)) := by
  have h1 : decode_chunk (s ++ t) = decode_chunk s := by
    rw [decode_chunk_append s t (by rw [← symbol_count_eq]; exact hs), decode_chunk_short t ht,
      List.append_nil]
  exact ⟨h1, decode_chunk_short t ht, decode_chunk_checked_eq⟩

/-- Witness for C17: `TWFu` followed by the three symbols `T W =` and a newline. -/
theorem trailing_group_dropped_witness :
    symbol_count ['T', 'W', 'F', 'u'] % 4 = 0 ∧ symbol_count ['T', '\n', 'W', '='] ≤ 3 ∧
    (decode_chunk (['T', 'W', 'F', 'u'] ++ ['T', '\n', 'W', '=']) =
      decode_chunk ['T', 'W', 'F', 'u'] ∧
    decode_chunk ['T', '\n', 'W', '='] = [] ∧
    (∀ input : List Char, decode_chunk_checked input = some (decode_chunk input))) :=
  ⟨by decide, by decide,
    trailing_group_dropped ['T', 'W', 'F', 'u'] ['T', '\n', 'W', '='] (by decide) (by decide)⟩

/-- C18. Decode is compositional at aligned boundaries: for all texts `s` and `t`, if
the number of alphabet-or-padding characters of `s` is a multiple of 4 then
`decode_chunk (s ++ t) = decode_chunk s ++ decode_chunk t`; hence decoding chunk by
chunk, every chunk holding a multiple of 4 such characters, equals decoding the whole
text. -/
theorem decode_compositional (s t : List Char) (h : symbol_count s % 4 = 0) :
    decode_chunk (s ++ t) = decode_chunk s ++ decode_chunk t ∧
    (∀ chunks : List (List Char), (∀ ch ∈ chunks, symbol_count ch % 4 = 0) →
      (chunks.map decode_chunk).flatten = decode_chunk chunks.flatten) :=
  ⟨decode_chunk_append s t (by rw [← symbol_count_eq]; exact h), decode_chunks_flatten⟩

/-- Witness for C18: `TW\nFu` (4 symbols and a newline) followed by `TQ==`. -/
theorem decode_compositional_witness :
    symbol_count ['T', 'W', '\n', 'F', 'u'] % 4 = 0 ∧
    (decode_chunk (['T', 'W', '\n', 'F', 'u'] ++ ['T', 'Q', '=', '=']) =
      decode_chunk ['T', 'W', '\n', 'F', 'u'] ++ decode_chunk ['T', 'Q', '=', '='] ∧
    (∀ chunks : List (List Char), (∀ ch ∈ chunks, symbol_count ch % 4 = 0) →
      (chunks.map decode_chunk).flatten = decode_chunk chunks.flatten)) :=
  ⟨by decide,
    decode_compositional ['T', 'W', '\n', 'F', 'u'] ['T', 'Q', '=', '='] (by decide)⟩

/-- C19. Index and range safety of the workers: for every input, `encode_chunk` run
with every lookup in `b64_chars` checked to be in 0..63, and `decode_chunk` run with
the cursor `i` checked to be in 0..3 at every write to `a4`, every `vals[k]` checked to
be in 0..63 and the three values assigned to `a3` checked to be in 0..255, pass every
check and return what the unchecked workers return; the cursor is in 0..3 after any
input; `b64_index` is not `-1` on a character that passes the test of line 68 unless
the character is `=`, and the value used for such a character is in 0..63; narrowing a
value in 0..255 keeps it. -/
theorem index_range_safety (data : List Byte) (input : List Char) :
    encode_chunk_checked data = some (encode_chunk data) ∧
    decode_chunk_checked input = some (decode_chunk input) ∧
    (input.foldl decode_step decode_init).i < 4 ∧
    (input.foldl decode_step decode_init).a4.length = 4 ∧
    (∀ c : Char, is_symbol c = true → c ≠ '=' → b64_index c ≠ -1) ∧
    (∀ c : Char, is_symbol c = true → 0 ≤ symbol_value c ∧ symbol_value c ≤ 63) ∧
    (∀ a b c : Byte, sextet0 a.val < 64 ∧ sextet1 a.val b.val < 64 ∧
      sextet2 b.val c.val < 64 ∧ sextet3 c.val < 64) ∧
    (∀ n : Nat, n < 256 → ((toUChar (n : Int)).val : Int) = (n : Int)) := by
  have hinv : DecodeInv (input.foldl decode_step decode_init) := decode_fold_inv input _ decodeInv_init
  refine ⟨?_, decode_chunk_checked_eq input, hinv.2.1, hinv.1, ?_, ?_, ?_, ?_⟩
  · exact encode_loop_checked_eq data 0 []
  · intro c hc hne h1
    rcases (is_symbol_iff c).mp hc with hm | hm
    · exact (b64_index_eq_neg_one_iff c).mp h1 hm
    · exact hne hm
  · intro c hc
    obtain ⟨v, hv, e⟩ := symbol_value_of_symbol c hc
    rw [e]; omega
  · intro a b c
    exact ⟨sextet0_lt a, sextet1_lt _ _ b.isLt, sextet2_lt _ _ c.isLt, sextet3_lt _⟩
  · intro n hn
    rw [toUChar_val n hn]

end Base64
